import Mathlib

/-!
Verification development for the DFA-based normalization subsystem of the
`hypothesis` repository (`hypothesis/internal/conjecture/shrinking/dfas.py`
together with its DFA-model test suite `tests/conjecture/test_dfa.py`).

Buffers are byte strings, embedded as `List Nat`.  The driver `normalize`,
its prefix/suffix stripping step, the persistence routine
`update_learned_dfas`, and the (spec-modelled) DFA data model are embedded
below, followed by the theorems settling the frozen claims.
-/

/-! ## Byte buffers and the shrinker's total order

`sort_key` in `hypothesis.internal.conjecture.shrinker` is
`sort_key(buffer) = (len(buffer), buffer)`, i.e. shortlex order.
-/

/-- Strict lexicographic order on byte lists (Python `<` on `bytes`). -/
def lexLt : List Nat → List Nat → Bool
  | [], [] => false
  | [], _ :: _ => true
  | _ :: _, [] => false
  | a :: as, b :: bs => if a < b then true else if b < a then false else lexLt as bs

/-- `sortKeyLt u v` holds iff `sort_key(u) < sort_key(v)` in the shrinker's
total order: first by length, then lexicographically. -/
def sortKeyLt (u v : List Nat) : Bool :=
  if u.length < v.length then true
  else if v.length < u.length then false
  else lexLt u v

theorem lexLt_irrefl (u : List Nat) : lexLt u u = false := by
  induction u with
  | nil => rfl
  | cons a as ih => simp [lexLt, ih]

theorem sortKeyLt_irrefl (u : List Nat) : sortKeyLt u u = false := by
  simp [sortKeyLt, lexLt_irrefl]

theorem length_le_of_sortKeyLt {u v : List Nat} (h : sortKeyLt u v = true) :
    u.length ≤ v.length := by
  unfold sortKeyLt at h
  by_cases h1 : u.length < v.length
  · exact Nat.le_of_lt h1
  · simp [h1] at h
    omega

/-! ## C1: the common-prefix/common-suffix stripping step of `normalize`

Embeds lines 168-198 of `dfas.py`.  The two Python `while` loops walk an
index while `u[i] == v[i]` (resp. `u[-i] == v[-i]`); indexing past the end
raises `IndexError`.  `firstDiffL` embeds such a loop as a structural
recursion over the two lists: it returns the first index at which the lists
differ, or an index error when one list is exhausted while the other still
matches (exactly the positions where Python would raise).  The backwards
loop is the same loop over the reversed lists, with the Python loop
variable being the returned index plus one (it starts at `i = 1`).
-/

inductive StripErr where
  | indexErr : StripErr
  | assertErr : StripErr
deriving DecidableEq, Repr

/-- First position at which `u` and `v` differ (the final value of `i` in
`while u[i] == v[i]: i += 1`), or `indexErr` when the loop runs off the end
of either list. -/
def firstDiffL : List Nat → List Nat → Except StripErr Nat
  | [], _ => .error .indexErr
  | _ :: _, [] => .error .indexErr
  | a :: as, b :: bs =>
    if a = b then
      match firstDiffL as bs with
      | .ok i => .ok (i + 1)
      | .error e => .error e
    else .ok 0

/-- Length of the longest common prefix of two lists. -/
def commonPrefixLen : List Nat → List Nat → Nat
  | a :: as, b :: bs => if a = b then commonPrefixLen as bs + 1 else 0
  | _, _ => 0

/-- Length of the longest common suffix of two lists. -/
def commonSuffixLen (u v : List Nat) : Nat :=
  commonPrefixLen u.reverse v.reverse

/-- The LEARNING step's stripping of lines 168-198 of `dfas.py`: the
`assert not v.startswith(u)`, the two scanning loops, the computation of
`prefix`, `suffix`, `u_core`, `v_core` by Python slicing, and every
`assert` in between.  Returns the quadruple (prefix, suffix, u_core,
v_core) on success, `indexErr` where Python would raise `IndexError` and
`assertErr` where an `assert` would fail. -/
def stripCores (u v : List Nat) : Except StripErr (List Nat × List Nat × List Nat × List Nat) :=
  if v.take u.length = u then .error .assertErr
  else
    match firstDiffL u v with
    | .error e => .error e
    | .ok p =>
      let pre := u.take p
      if ¬ (u.take pre.length = pre ∧ v.take pre.length = pre) then .error .assertErr
      else
        match firstDiffL u.reverse v.reverse with
        | .error e => .error e
        | .ok j =>
          let i := j + 1
          let suf := u.drop (u.length + 1 - i)
          if ¬ (u.drop (u.length - suf.length) = suf ∧ v.drop (v.length - suf.length) = suf) then
            .error .assertErr
          else
            let uCore := (u.take (u.length - suf.length)).drop pre.length
            let vCore := (v.take (v.length - suf.length)).drop pre.length
            if u = pre ++ uCore ++ suf ∧ v = pre ++ vCore ++ suf then .ok (pre, suf, uCore, vCore)
            else .error .assertErr

theorem commonPrefixLen_le_left (u v : List Nat) : commonPrefixLen u v ≤ u.length := by
  induction u generalizing v with
  | nil => simp [commonPrefixLen]
  | cons a as ih =>
    cases v with
    | nil => simp [commonPrefixLen]
    | cons b bs =>
      by_cases h : a = b
      · simp only [commonPrefixLen, if_pos h, List.length_cons]
        exact Nat.succ_le_succ (ih bs)
      · simp [commonPrefixLen, h]

theorem commonPrefixLen_le_right (u v : List Nat) : commonPrefixLen u v ≤ v.length := by
  induction u generalizing v with
  | nil => simp [commonPrefixLen]
  | cons a as ih =>
    cases v with
    | nil => simp [commonPrefixLen]
    | cons b bs =>
      by_cases h : a = b
      · simp only [commonPrefixLen, if_pos h, List.length_cons]
        exact Nat.succ_le_succ (ih bs)
      · simp [commonPrefixLen, h]

/-- The matching loop succeeds exactly when the common prefix is shorter
than both lists, and then returns its length. -/
theorem firstDiffL_ok {u v : List Nat}
    (hu : commonPrefixLen u v < u.length) (hv : commonPrefixLen u v < v.length) :
    firstDiffL u v = .ok (commonPrefixLen u v) := by
  induction u generalizing v with
  | nil => simp at hu
  | cons a as ih =>
    cases v with
    | nil => simp at hv
    | cons b bs =>
      by_cases h : a = b
      · simp only [commonPrefixLen, if_pos h] at hu hv ⊢
        have hu' : commonPrefixLen as bs < as.length := by
          simpa using Nat.lt_of_succ_lt_succ hu
        have hv' : commonPrefixLen as bs < bs.length := by
          simpa using Nat.lt_of_succ_lt_succ hv
        simp [firstDiffL, h, ih hu' hv']
      · simp [firstDiffL, commonPrefixLen, h]

/-- When `u` is a (necessarily proper, by `u ≠ v`) prefix-style match of the
shorter list, the loop runs off the end: Python raises `IndexError`. -/
theorem firstDiffL_err {u v : List Nat}
    (h : commonPrefixLen u v = u.length ∨ commonPrefixLen u v = v.length) :
    ∃ e, firstDiffL u v = .error e := by
  induction u generalizing v with
  | nil => exact ⟨.indexErr, rfl⟩
  | cons a as ih =>
    cases v with
    | nil => exact ⟨.indexErr, rfl⟩
    | cons b bs =>
      by_cases hab : a = b
      · simp only [commonPrefixLen, if_pos hab, List.length_cons] at h
        have h' : commonPrefixLen as bs = as.length ∨ commonPrefixLen as bs = bs.length := by
          omega
        obtain ⟨e, he⟩ := ih h'
        exact ⟨e, by simp [firstDiffL, hab, he]⟩
      · simp only [commonPrefixLen, if_neg hab, List.length_cons] at h
        omega

/-- The two lists agree on their common prefix. -/
theorem take_commonPrefixLen_eq (u v : List Nat) :
    u.take (commonPrefixLen u v) = v.take (commonPrefixLen u v) := by
  induction u generalizing v with
  | nil => simp [commonPrefixLen]
  | cons a as ih =>
    cases v with
    | nil => simp [commonPrefixLen]
    | cons b bs =>
      by_cases h : a = b
      · simp [commonPrefixLen, h, List.take_succ_cons, ih bs]
      · simp [commonPrefixLen, h]

/-- Helper: the two lists agree on their common suffix. -/
theorem drop_commonSuffixLen_eq (u v : List Nat) :
    u.drop (u.length - commonSuffixLen u v) = v.drop (v.length - commonSuffixLen u v) := by
  have h := take_commonPrefixLen_eq u.reverse v.reverse
  rw [List.take_reverse, List.take_reverse] at h
  exact List.reverse_injective h


/-- C1 (amended): the common-prefix/common-suffix stripping terminates
without out-of-range indexing, with all of its assertions passing, and
decomposes both buffers as `u = prefix+u_core+suffix` and
`v = prefix+v_core+suffix`, provided additionally that `u` is not a suffix
of `v` and that the common prefix and common suffix of the two buffers do
not overlap inside `u`. -/
theorem stripCores_ok (u v : List Nat)
    (hlt : sortKeyLt u v = true)
    (hpre : ¬ v.take u.length = u)
    (hsuf : commonSuffixLen u v < u.length)
    (hov : commonPrefixLen u v + commonSuffixLen u v ≤ u.length) :
    ∃ pre suf uc vc, stripCores u v = .ok (pre, suf, uc, vc) ∧
      u = pre ++ uc ++ suf ∧ v = pre ++ vc ++ suf := by
  have hlen : u.length ≤ v.length := length_le_of_sortKeyLt hlt
  obtain ⟨P, hP⟩ : ∃ P, commonPrefixLen u v = P := ⟨_, rfl⟩
  obtain ⟨S, hSd⟩ : ∃ S, commonSuffixLen u v = S := ⟨_, rfl⟩
  rw [hP, hSd] at hov
  rw [hSd] at hsuf
  -- the first loop stops strictly inside both buffers
  have hPu : P < u.length := by
    rcases Nat.lt_or_ge P u.length with h | h
    · exact h
    · exfalso
      have hle := commonPrefixLen_le_left u v
      rw [hP] at hle
      have hPeq : P = u.length := Nat.le_antisymm hle h
      apply hpre
      have h1 : v.take P = u.take P := by
        rw [← hP]; exact (take_commonPrefixLen_eq u v).symm
      rw [hPeq] at h1
      simpa using h1
  have hPv : P < v.length := Nat.lt_of_lt_of_le hPu hlen
  have hfd : firstDiffL u v = .ok P := by
    rw [← hP]
    exact firstDiffL_ok (by omega) (by omega)
  have hagree : u.take P = v.take P := by
    rw [← hP]; exact take_commonPrefixLen_eq u v
  -- the second loop stops strictly inside both buffers
  have hfd2 : firstDiffL u.reverse v.reverse = .ok S := by
    have h1 : commonPrefixLen u.reverse v.reverse < u.reverse.length := by
      rw [← commonSuffixLen, hSd]; simpa using hsuf
    have h2 : commonPrefixLen u.reverse v.reverse < v.reverse.length := by
      rw [← commonSuffixLen, hSd]; simp; omega
    have h3 := firstDiffL_ok h1 h2
    rw [← commonSuffixLen, hSd] at h3
    exact h3
  have hsagree : u.drop (u.length - S) = v.drop (v.length - S) := by
    rw [← hSd]; exact drop_commonSuffixLen_eq u v
  -- index arithmetic and lengths of the pieces
  have hidx : u.length + 1 - (S + 1) = u.length - S := by omega
  have hprelen : (u.take P).length = P := by simp; omega
  have hsuflen : (u.drop (u.length - S)).length = S := by simp; omega
  -- the decompositions
  have hu_dec : u = u.take P ++ (u.take (u.length - S)).drop P ++ u.drop (u.length - S) :=
    calc u = u.take (u.length - S) ++ u.drop (u.length - S) :=
            (List.take_append_drop _ u).symm
      _ = (u.take P ++ (u.take (u.length - S)).drop P) ++ u.drop (u.length - S) := by
            rw [List.append_left_inj]
            nth_rewrite 1 [← List.take_append_drop P (u.take (u.length - S))]
            rw [List.take_take, Nat.min_eq_left (by omega)]
  have hv_dec : v = u.take P ++ (v.take (v.length - S)).drop P ++ u.drop (u.length - S) :=
    calc v = v.take (v.length - S) ++ v.drop (v.length - S) :=
            (List.take_append_drop _ v).symm
      _ = (u.take P ++ (v.take (v.length - S)).drop P) ++ u.drop (u.length - S) := by
            rw [hsagree, List.append_left_inj]
            nth_rewrite 1 [← List.take_append_drop P (v.take (v.length - S))]
            rw [List.take_take, Nat.min_eq_left (by omega), hagree]
  refine ⟨u.take P, u.drop (u.length - S), (u.take (u.length - S)).drop P,
    (v.take (v.length - S)).drop P, ?_, hu_dec, hv_dec⟩
  simp only [stripCores, hfd, hfd2, hidx, hprelen, hsuflen, true_and]
  rw [if_neg hpre, if_neg (not_not_intro hagree.symm),
    if_neg (not_not_intro hsagree.symm), if_pos ⟨hu_dec, hv_dec⟩]

/-- C1, counterexample to the claim as stated: `u = [0x01]`, `v = [0x00,
0x01]` are diverging shrunk buffers with `u` before `v` in the external
total order and `v` not an extension of `u`, yet the suffix-stripping loop
indexes out of range (Python raises `IndexError` evaluating `u[-2]`). -/
theorem c1_stripping_counterexample :
    sortKeyLt [1] [0, 1] = true ∧ ¬ (([0, 1] : List Nat).take 1 = [1]) ∧
      ([1] : List Nat) ≠ [0, 1] ∧ stripCores [1] [0, 1] = .error .indexErr :=
  ⟨by decide, by decide, by decide, rfl⟩

/-- C1 (amended): for diverging shrunk buffers `u`, `v` with `u` first in
the external total order and `v` not a direct extension of `u`, the
LEARNING step's common-prefix/common-suffix stripping terminates without
out-of-range indexing and with all its internal assertions holding, and
produces `prefix`, `suffix`, `u_core`, `v_core` with `u =
prefix+u_core+suffix` and `v = prefix+v_core+suffix` — provided,
additionally, that `u` is not a suffix of `v` and that the longest common
prefix and longest common suffix of the two buffers do not overlap within
`u`. -/
theorem c1_stripping_decomposes (u v : List Nat)
    (hlt : sortKeyLt u v = true)
    (hpre : ¬ v.take u.length = u)
    (hsuf : commonSuffixLen u v < u.length)
    (hov : commonPrefixLen u v + commonSuffixLen u v ≤ u.length) :
    ∃ pre suf uc vc, stripCores u v = .ok (pre, suf, uc, vc) ∧
      u = pre ++ uc ++ suf ∧ v = pre ++ vc ++ suf :=
  stripCores_ok u v hlt hpre hsuf hov

/-- Witness for C1 at `u = [0,5,9]`, `v = [0,7,7,9]`. -/
theorem c1_stripping_decomposes_witness :
    sortKeyLt [0, 5, 9] [0, 7, 7, 9] = true ∧
      (∃ pre suf uc vc, stripCores [0, 5, 9] [0, 7, 7, 9] = .ok (pre, suf, uc, vc) ∧
        [0, 5, 9] = pre ++ uc ++ suf ∧ [0, 7, 7, 9] = pre ++ vc ++ suf) :=
  ⟨by decide, c1_stripping_decomposes [0, 5, 9] [0, 7, 7, 9]
    (by decide) (by decide) (by decide) (by decide)⟩

/-! ## The `normalize` driver loop (lines 100-266 of `dfas.py`)

The driver interacts with the external `ConjectureRunner`.  The embedding
makes that interaction explicit as a trace of oracle responses:

* each iteration of the outer `while consecutive_successes <
  required_successes` loop consumes one `OuterEvent` — either a
  non-interesting `cached_test_function` result (`.fail`), or an
  interesting one carrying its `interesting_origin` and the stream of
  responses consumed by the inner `while True` loop;
* each iteration of the inner loop consumes one `InnerEvent`: the
  `runner.shrink` result, plus — used only on the learning path — an
  abstract verdict `oracleOk` standing for the oracle-dependent assertions
  (`is_valid_core(u_core)`, `is_valid_core(v_core)`, `name not in
  SHRINKING_DFAS`) and the engine's latest interesting example
  `newExample` read from `runner.interesting_examples[target]`.

The L* learner itself lives outside `src`; its run (lines 229-247) can only
diverge from the model through `oracleOk`.  The registry `SHRINKING_DFAS`
is tracked by the number of automata registered this session.  A Python
exception aborts `normalize`; each error constructor carries the state at
the moment of the raise (globals keep the values they had then).
-/

/-- A `runner.shrink` result: its buffer and its `has_discards` flag. -/
structure ShrinkRes where
  buffer : List Nat
  hasDiscards : Bool
deriving DecidableEq, Repr

/-- The mutable state of one `normalize` session. -/
structure NState where
  /-- `seen`: association of interesting origin to recorded shrunk result. -/
  seen : List (Nat × ShrinkRes)
  /-- `dfas_added`. -/
  dfasAdded : Nat
  /-- number of entries added to `SHRINKING_DFAS` this session. -/
  registered : Nat
  /-- `found_interesting`. -/
  foundInteresting : Bool
  /-- `consecutive_successes`. -/
  consecutiveSuccesses : Nat
  /-- `failures_to_find_interesting`. -/
  failuresToFind : Nat
deriving DecidableEq, Repr

/-- The initial state of `normalize` (lines 110-116). -/
def initialNState : NState :=
  { seen := [], dfasAdded := 0, registered := 0, foundInteresting := false,
    consecutiveSuccesses := 0, failuresToFind := 0 }

/-- Tuning parameters of `normalize`. -/
structure NParams where
  requiredSuccesses : Nat
  allowedToUpdate : Bool
  maxDfas : Nat
deriving DecidableEq, Repr

/-- One inner-loop oracle response. -/
structure InnerEvent where
  shrunk : ShrinkRes
  oracleOk : Bool
  newExample : ShrinkRes
deriving DecidableEq, Repr

/-- One outer-loop oracle response. -/
inductive OuterEvent where
  | fail : OuterEvent
  | interesting : Nat → List InnerEvent → OuterEvent
deriving DecidableEq, Repr

/-- The ways a `normalize` session aborts, each carrying the state at the
moment of the raise.  `failedToNormalise` covers both `raise
FailedToNormalise` sites, distinguished by `NFailKind`; `assertFailed`
covers Python `AssertionError`s; `traceExhausted` is a modelling artifact
for a trace that ends while the driver still wants another oracle call. -/
inductive NFailKind where
  | notAllowed : NFailKind
  | budgetExceeded : NFailKind
deriving DecidableEq, Repr

inductive DriverError where
  | assertNoInteresting : NState → DriverError
  | failedToNormalise : NFailKind → NState → DriverError
  | assertFailed : NState → DriverError
  | traceExhausted : NState → DriverError
deriving DecidableEq, Repr

/-- Association-list lookup for `seen[target]` (`dict` access). -/
def lookupSeen : List (Nat × ShrinkRes) → Nat → Option ShrinkRes
  | [], _ => none
  | (k, r) :: rest, t => if k = t then some r else lookupSeen rest t

/-- `seen[target] = value` (`dict` assignment). -/
def insertSeen : List (Nat × ShrinkRes) → Nat → ShrinkRes → List (Nat × ShrinkRes)
  | [], t, r => [(t, r)]
  | (k, r0) :: rest, t, r => if k = t then (k, r) :: rest else (k, r0) :: insertSeen rest t r

/-- Outcome of one inner-loop iteration: `brk` leaves the inner loop,
`cont` runs another shrink for the same attempt. -/
inductive InnerOut where
  | brk : NState → InnerOut
  | cont : NState → InnerOut
deriving DecidableEq, Repr

/-- One iteration of the inner `while True` loop of `normalize` (lines
130-261), for attempt origin `t`.  Follows the source: record a
first-seen origin and break; on a reproduced buffer count a success and
break; otherwise zero the success counter, order the two buffers by
`sort_key`, check `allowed_to_update`, check the DFA budget, bump
`dfas_added`, run the stripping step with its assertions, check the
oracle-dependent assertions, then register the learned DFA and replace
`seen[target]` with the engine's latest interesting example. -/
def innerStep (P : NParams) (t : Nat) (s : NState) (e : InnerEvent) :
    Except DriverError InnerOut :=
  match lookupSeen s.seen t with
  | none => .ok (.brk { s with seen := insertSeen s.seen t e.shrunk })
  | some existing =>
    if e.shrunk.buffer = existing.buffer then
      .ok (.brk { s with consecutiveSuccesses := s.consecutiveSuccesses + 1 })
    else
      let s0 := { s with consecutiveSuccesses := 0 }
      let uv := if sortKeyLt e.shrunk.buffer existing.buffer
        then (e.shrunk.buffer, existing.buffer) else (existing.buffer, e.shrunk.buffer)
      if ¬ P.allowedToUpdate then .error (.failedToNormalise .notAllowed s0)
      else if P.maxDfas ≤ s0.dfasAdded then .error (.failedToNormalise .budgetExceeded s0)
      else
        let s1 := { s0 with dfasAdded := s0.dfasAdded + 1 }
        match stripCores uv.1 uv.2 with
        | .error _ => .error (.assertFailed s1)
        | .ok (_, _, uc, vc) =>
          if ¬ sortKeyLt uc vc then .error (.assertFailed s1)
          else if ¬ e.oracleOk then .error (.assertFailed s1)
          else .ok (.cont { s1 with
              registered := s1.registered + 1
              seen := insertSeen s1.seen t e.newExample })

/-- The inner `while True` loop, consuming inner events until a break. -/
def innerLoop (P : NParams) (t : Nat) : NState → List InnerEvent → Except DriverError NState
  | s, [] => .error (.traceExhausted s)
  | s, e :: es =>
    match innerStep P t s e with
    | .ok (.brk s') => .ok s'
    | .ok (.cont s') => innerLoop P t s' es
    | .error err => .error err

/-- One iteration of the outer loop (lines 117-261): either the
non-interesting branch with its retry-budget assertion (lines 119-124), or
the interesting branch running the inner loop. -/
def outerStep (P : NParams) (s : NState) : OuterEvent → Except DriverError NState
  | .fail =>
    let f := s.failuresToFind + 1
    if s.foundInteresting ∨ f ≤ 1000 then .ok { s with failuresToFind := f }
    else .error (.assertNoInteresting { s with failuresToFind := f })
  | .interesting t inner => innerLoop P t { s with foundInteresting := true } inner

/-- The whole `normalize` session over a trace of oracle responses.
Returns the final state and whether `update_learned_dfas()` was invoked
(line 263: exactly when `dfas_added > 0` on normal completion). -/
def normalizeRun (P : NParams) : NState → List OuterEvent → Except DriverError (NState × Bool)
  | s, evs =>
    if P.requiredSuccesses ≤ s.consecutiveSuccesses then .ok (s, decide (0 < s.dfasAdded))
    else
      match evs with
      | [] => .error (.traceExhausted s)
      | e :: es =>
        match outerStep P s e with
        | .ok s' => normalizeRun P s' es
        | .error err => .error err

/-- Processing a list of outer events step by step (used to reason about
the seeking phase without the stopping condition). -/
def stepMany (P : NParams) : NState → List OuterEvent → Except DriverError NState
  | s, [] => .ok s
  | s, e :: es =>
    match outerStep P s e with
    | .ok s' => stepMany P s' es
    | .error err => .error err

/-- Default tuning parameters of `normalize` (line 71-77 of `dfas.py`). -/
def defaultNParams : NParams :=
  { requiredSuccesses := 100, allowedToUpdate := false, maxDfas := 10 }

/-- Seeking phase: `n` consecutive non-interesting attempts succeed (no
abort) as long as the cumulative failure count stays at most 1000. -/
theorem stepMany_replicate_fail (P : NParams) (s : NState) (n : Nat)
    (h : s.failuresToFind + n ≤ 1000) :
    stepMany P s (List.replicate n .fail) =
      .ok { s with failuresToFind := s.failuresToFind + n } := by
  induction n generalizing s with
  | zero => simp [stepMany]
  | succ n ih =>
    rw [List.replicate_succ]
    have hcond : s.foundInteresting = true ∨ s.failuresToFind + 1 ≤ 1000 :=
      Or.inr (by omega)
    have hstep : outerStep P s .fail = .ok { s with failuresToFind := s.failuresToFind + 1 } := by
      simp only [outerStep]
      rw [if_pos hcond]
    simp only [stepMany, hstep]
    rw [ih { s with failuresToFind := s.failuresToFind + 1 } (by simp; omega)]
    have harith : s.failuresToFind + 1 + n = s.failuresToFind + (n + 1) := by omega
    simp [harith]

/-- Processing a concatenated trace processes the pieces in order. -/
theorem stepMany_append (P : NParams) (s : NState) (xs ys : List OuterEvent) :
    stepMany P s (xs ++ ys) =
      match stepMany P s xs with
      | .ok s' => stepMany P s' ys
      | .error err => .error err := by
  induction xs generalizing s with
  | nil => simp [stepMany]
  | cons e es ih =>
    simp only [List.cons_append, stepMany]
    cases outerStep P s e with
    | ok s' => exact ih s'
    | error err => rfl

set_option maxRecDepth 4000 in
/-- C3, counterexample to the claim as stated: a seeking phase of exactly
1000 consecutive non-interesting attempts, before any interesting test
case has ever been found, does NOT abort — the driver is still running
(the assertion `found_interesting or failures_to_find_interesting <= 1000`
tolerates the 1000th failure). -/
theorem c3_retry_budget_counterexample :
    stepMany defaultNParams initialNState (List.replicate 1000 .fail) =
      .ok { initialNState with failuresToFind := 1000 } := by
  have h0 : initialNState.failuresToFind = 0 := rfl
  have h := stepMany_replicate_fail defaultNParams initialNState 1000 (by rw [h0])
  simpa [h0] using h

set_option maxRecDepth 4000 in
/-- C3 (amended): the seeking phase aborts with an assertion-style fault on
the 1001st cumulative non-interesting attempt before any interesting test
case has been found (not the 1000th: up to 1000 such attempts are
tolerated), and once an interesting case has been found a non-interesting
attempt never trips this assertion. -/
theorem c3_retry_budget :
    (∀ n, n ≤ 1000 → stepMany defaultNParams initialNState (List.replicate n .fail) =
      .ok { initialNState with failuresToFind := n }) ∧
    stepMany defaultNParams initialNState (List.replicate 1001 .fail) =
      .error (.assertNoInteresting { initialNState with failuresToFind := 1001 }) ∧
    (∀ (P : NParams) (s : NState), s.foundInteresting = true →
      outerStep P s .fail = .ok { s with failuresToFind := s.failuresToFind + 1 }) := by
  have h0 : initialNState.failuresToFind = 0 := rfl
  refine ⟨?_, ?_, ?_⟩
  · intro n hn
    have h := stepMany_replicate_fail defaultNParams initialNState n (by rw [h0]; omega)
    simpa [h0] using h
  · have hsplit : (List.replicate 1001 (OuterEvent.fail)) =
        List.replicate 1000 .fail ++ [.fail] := by
      rw [← List.replicate_succ']
    rw [hsplit, stepMany_append]
    have h := stepMany_replicate_fail defaultNParams initialNState 1000 (by rw [h0])
    rw [h]
    have hcond : ¬ (({ initialNState with
        failuresToFind := initialNState.failuresToFind + 1000 } : NState).foundInteresting = true ∨
        ({ initialNState with
        failuresToFind := initialNState.failuresToFind + 1000 } : NState).failuresToFind + 1 ≤ 1000) := by
      rw [h0]
      simp [initialNState]
    simp only [stepMany, outerStep]
    rw [if_neg hcond]
    simp [h0, initialNState]
  · intro P s hf
    simp [outerStep, hf]

/-- Witness for C3 at `n = 3` and at a found-interesting state. -/
theorem c3_retry_budget_witness :
    (3 ≤ 1000 ∧ stepMany defaultNParams initialNState (List.replicate 3 .fail) =
      .ok { initialNState with failuresToFind := 3 }) ∧
    outerStep defaultNParams { initialNState with foundInteresting := true } .fail =
      .ok { initialNState with foundInteresting := true, failuresToFind := 1 } :=
  ⟨⟨by decide, c3_retry_budget.1 3 (by decide)⟩,
    c3_retry_budget.2.2 defaultNParams { initialNState with foundInteresting := true } rfl⟩

/-- Case analysis of a successful inner-loop iteration: a `brk` outcome
keeps `dfas_added` unchanged, while a `cont` outcome (a learning round)
increments it and only happens strictly below the budget. -/
theorem innerStep_ok_dfasAdded {P : NParams} {t : Nat} {s : NState} {e : InnerEvent}
    {out : InnerOut} (h : innerStep P t s e = .ok out) :
    (∃ s', out = .brk s' ∧ s'.dfasAdded = s.dfasAdded) ∨
    (∃ s', out = .cont s' ∧ s'.dfasAdded = s.dfasAdded + 1 ∧ s.dfasAdded < P.maxDfas) := by
  simp only [innerStep] at h
  split at h
  · left
    have h' : out = InnerOut.brk { s with seen := insertSeen s.seen t e.shrunk } := by
      simpa using h.symm
    exact ⟨_, h', rfl⟩
  · split at h
    · left
      have h' : out =
          InnerOut.brk { s with consecutiveSuccesses := s.consecutiveSuccesses + 1 } := by
        simpa using h.symm
      exact ⟨_, h', rfl⟩
    · split at h
      · simp at h
      · split at h
        · simp at h
        · split at h
          · simp at h
          · split at h
            · simp at h
            · split at h
              · simp at h
              · right
                refine ⟨_, by simpa using h.symm, rfl, ?_⟩
                omega

/-- The inner loop never pushes `dfas_added` beyond the budget. -/
theorem innerLoop_dfasAdded_le {P : NParams} {t : Nat} :
    ∀ (es : List InnerEvent) (s s' : NState), innerLoop P t s es = .ok s' →
      s.dfasAdded ≤ P.maxDfas → s'.dfasAdded ≤ P.maxDfas := by
  intro es
  induction es with
  | nil => intro s s' h; simp [innerLoop] at h
  | cons e es ih =>
    intro s s' h hle
    simp only [innerLoop] at h
    split at h
    · rename_i s1 heq
      rcases innerStep_ok_dfasAdded heq with ⟨s2, h2, h3⟩ | ⟨s2, h2, _, _⟩
      · cases h
        cases h2
        omega
      · cases h2
    · rename_i s1 heq
      rcases innerStep_ok_dfasAdded heq with ⟨s2, h2, _⟩ | ⟨s2, h2, h3, h4⟩
      · cases h2
      · cases h2
        exact ih s1 s' h (by omega)
    · cases h

/-- One outer-loop iteration never pushes `dfas_added` beyond the budget. -/
theorem outerStep_dfasAdded_le {P : NParams} {s s' : NState} {e : OuterEvent}
    (h : outerStep P s e = .ok s') (hle : s.dfasAdded ≤ P.maxDfas) :
    s'.dfasAdded ≤ P.maxDfas := by
  cases e with
  | fail =>
    simp only [outerStep] at h
    split at h
    · cases h
      exact hle
    · cases h
  | interesting t inner =>
    exact innerLoop_dfasAdded_le inner _ s' h hle

/-- A completed `normalize` run never holds more than `max_dfas` learned
automata. -/
theorem normalizeRun_dfasAdded_le {P : NParams} :
    ∀ (evs : List OuterEvent) (s : NState) (out : NState × Bool),
      normalizeRun P s evs = .ok out → s.dfasAdded ≤ P.maxDfas →
      out.1.dfasAdded ≤ P.maxDfas := by
  intro evs
  induction evs with
  | nil =>
    intro s out h hle
    simp only [normalizeRun] at h
    split at h
    · cases h
      exact hle
    · cases h
  | cons e es ih =>
    intro s out h hle
    simp only [normalizeRun] at h
    split at h
    · cases h
      exact hle
    · split at h
      · rename_i s1 heq
        exact ih s1 out h (outerStep_dfasAdded_le heq hle)
      · cases h

/-- C7: a `normalize` session either completes holding at most `max_dfas`
learned automata, or — as soon as one more divergence would require
learning an automaton beyond the cap — raises `FailedToNormalise`
(learning-budget kind) before learning anything, with the success counter
already zeroed by the divergence and all other state unchanged. -/
theorem c7_learning_budget :
    (∀ (P : NParams) (evs : List OuterEvent) (out : NState × Bool),
      normalizeRun P initialNState evs = .ok out → out.1.dfasAdded ≤ P.maxDfas) ∧
    (∀ (P : NParams) (t : Nat) (s : NState) (e : InnerEvent) (ex : ShrinkRes),
      P.allowedToUpdate = true → lookupSeen s.seen t = some ex →
      e.shrunk.buffer ≠ ex.buffer → P.maxDfas ≤ s.dfasAdded →
      innerStep P t s e =
        .error (.failedToNormalise .budgetExceeded { s with consecutiveSuccesses := 0 })) := by
  constructor
  · intro P evs out h
    exact normalizeRun_dfasAdded_le evs initialNState out h (Nat.zero_le _)
  · intro P t s e ex hP hseen hdiff hbudget
    simp [innerStep, hseen, hdiff, hP, hbudget]

/-- Witness for C7: an immediately-satisfied session keeps `dfas_added = 0
≤ max_dfas`, and a divergence at the cap raises the budget error. -/
theorem c7_learning_budget_witness :
    initialNState.dfasAdded ≤ (10 : Nat) ∧
    innerStep { requiredSuccesses := 100, allowedToUpdate := true, maxDfas := 0 } 7
        { initialNState with seen := [(7, ⟨[0], false⟩)] } ⟨⟨[1], false⟩, true, ⟨[1], false⟩⟩ =
      .error (.failedToNormalise .budgetExceeded
        { initialNState with seen := [(7, ⟨[0], false⟩)], consecutiveSuccesses := 0 }) :=
  ⟨c7_learning_budget.1 ⟨0, false, 10⟩ [] (initialNState, false) rfl,
    c7_learning_budget.2 ⟨100, true, 0⟩ 7 { initialNState with seen := [(7, ⟨[0], false⟩)] }
      ⟨⟨[1], false⟩, true, ⟨[1], false⟩⟩ ⟨[0], false⟩ rfl rfl (by decide) (Nat.zero_le _)⟩

/-- C8: when the recorded and freshly shrunk buffers for an origin differ
and updating is disallowed, the very next thing the driver does is raise
`FailedToNormalise`: no automaton is learned (`dfas_added` unchanged),
nothing is registered, and `seen` is untouched (and, the session having
ended in an exception rather than completing, `update_learned_dfas()` on
line 266 is never reached). -/
theorem c8_diverge_learning_disallowed :
    ∀ (P : NParams) (t : Nat) (s : NState) (e : InnerEvent) (ex : ShrinkRes),
      P.allowedToUpdate = false → lookupSeen s.seen t = some ex →
      e.shrunk.buffer ≠ ex.buffer →
      innerStep P t s e =
        .error (.failedToNormalise .notAllowed { s with consecutiveSuccesses := 0 }) ∧
      ({ s with consecutiveSuccesses := 0 } : NState).dfasAdded = s.dfasAdded ∧
      ({ s with consecutiveSuccesses := 0 } : NState).registered = s.registered ∧
      ({ s with consecutiveSuccesses := 0 } : NState).seen = s.seen := by
  intro P t s e ex hP hseen hdiff
  refine ⟨?_, rfl, rfl, rfl⟩
  simp [innerStep, hseen, hdiff, hP]

/-- Witness for C8 at a concrete diverging state. -/
theorem c8_diverge_learning_disallowed_witness :
    innerStep defaultNParams 3 { initialNState with seen := [(3, ⟨[5], false⟩)] }
        ⟨⟨[6], false⟩, true, ⟨[6], false⟩⟩ =
      .error (.failedToNormalise .notAllowed
        { initialNState with seen := [(3, ⟨[5], false⟩)], consecutiveSuccesses := 0 }) :=
  (c8_diverge_learning_disallowed defaultNParams 3
    { initialNState with seen := [(3, ⟨[5], false⟩)] }
    ⟨⟨[6], false⟩, true, ⟨[6], false⟩⟩ ⟨[5], false⟩ rfl rfl (by decide)).1

/-- C10: the consecutive-success counter is a single session-wide counter
shared across all interesting origins: (1) reproducing the recorded buffer
of any origin increments it; (2) a divergence for any origin zeroes it
(the step behaves as if the counter were already zero, and any learning
continuation leaves it at zero); (3) the session stops as soon as the
shared counter reaches `required_successes`, whatever origins contributed;
(4) successes on two different origins both feed the same counter. -/
theorem c10_shared_success_counter :
    (∀ (P : NParams) (t : Nat) (s : NState) (e : InnerEvent) (ex : ShrinkRes),
      lookupSeen s.seen t = some ex → e.shrunk.buffer = ex.buffer →
      innerStep P t s e =
        .ok (.brk { s with consecutiveSuccesses := s.consecutiveSuccesses + 1 })) ∧
    (∀ (P : NParams) (t : Nat) (s : NState) (e : InnerEvent) (ex : ShrinkRes),
      lookupSeen s.seen t = some ex → e.shrunk.buffer ≠ ex.buffer →
      innerStep P t s e = innerStep P t { s with consecutiveSuccesses := 0 } e ∧
      (∀ s', innerStep P t s e = .ok (.cont s') → s'.consecutiveSuccesses = 0)) ∧
    (∀ (P : NParams) (s : NState) (evs : List OuterEvent),
      P.requiredSuccesses ≤ s.consecutiveSuccesses →
      normalizeRun P s evs = .ok (s, decide (0 < s.dfasAdded))) ∧
    (∀ (P : NParams) (s : NState) (t1 t2 : Nat) (e1 e2 : InnerEvent) (ex1 ex2 : ShrinkRes),
      lookupSeen s.seen t1 = some ex1 → e1.shrunk.buffer = ex1.buffer →
      lookupSeen s.seen t2 = some ex2 → e2.shrunk.buffer = ex2.buffer →
      stepMany P s [.interesting t1 [e1], .interesting t2 [e2]] =
        .ok { s with foundInteresting := true,
                     consecutiveSuccesses := s.consecutiveSuccesses + 2 }) := by
  refine ⟨?_, ?_, ?_, ?_⟩
  · intro P t s e ex hseen heq
    simp [innerStep, hseen, heq]
  · intro P t s e ex hseen hdiff
    constructor
    · simp [innerStep, hseen, hdiff]
    · intro s' h
      simp only [innerStep, hseen] at h
      rw [if_neg hdiff] at h
      split at h
      · cases h
      · split at h
        · cases h
        · split at h
          · cases h
          · split at h
            · cases h
            · split at h
              · cases h
              · have h' : s' = { { { s with consecutiveSuccesses := 0 } with
                    dfasAdded := ({ s with consecutiveSuccesses := 0 } : NState).dfasAdded + 1 } with
                    registered := ({ s with consecutiveSuccesses := 0 } : NState).registered + 1,
                    seen := insertSeen s.seen t e.newExample } := by
                  simpa using h.symm
                rw [h']
  · intro P s evs hreq
    cases evs with
    | nil =>
      simp only [normalizeRun]
      rw [if_pos hreq]
    | cons e es =>
      simp only [normalizeRun]
      rw [if_pos hreq]
  · intro P s t1 t2 e1 e2 ex1 ex2 h1 hb1 h2 hb2
    simp [stepMany, outerStep, innerLoop, innerStep, h1, hb1, h2, hb2]

/-- Witness for C10: a success on a concrete origin bumps the shared
counter, and a session whose counter already meets the requirement stops
at once. -/
theorem c10_shared_success_counter_witness :
    innerStep defaultNParams 4 { initialNState with seen := [(4, ⟨[2], false⟩)] }
        ⟨⟨[2], false⟩, true, ⟨[2], false⟩⟩ =
      .ok (.brk { initialNState with seen := [(4, ⟨[2], false⟩)], consecutiveSuccesses := 1 }) ∧
    normalizeRun { requiredSuccesses := 0, allowedToUpdate := false, maxDfas := 10 }
        initialNState [] = .ok (initialNState, false) :=
  ⟨c10_shared_success_counter.1 defaultNParams 4
      { initialNState with seen := [(4, ⟨[2], false⟩)] }
      ⟨⟨[2], false⟩, true, ⟨[2], false⟩⟩ ⟨[2], false⟩ rfl rfl,
    c10_shared_success_counter.2.2.1
      { requiredSuccesses := 0, allowedToUpdate := false, maxDfas := 10 }
      initialNState [] (Nat.zero_le _)⟩

/-! ## C9: `update_learned_dfas` (lines 41-68 of `dfas.py`)

The file contents are embedded as `List Char`; Python reads the file in
text mode (universal newlines), so a line break is the single character
`'\n'`.  `splitLinesPy` models `str.splitlines` for such text and
`joinLinesPy` models `"\n".join(lines) + "\n"` from line 64.  Registry
entries are pairs of rendered `repr` fragments: the name (a plain string:
`repr` wraps it in quotes, modelled by `pyReprStr`) and the DFA's `repr`
text, taken as given.  `sorted(SHRINKING_DFAS.items())` sorts the items by
their (unique) keys; `sortPairs` is that sort.
-/

/-- The line-break character. -/
def NLchar : Char := Char.ofNat 10

/-- Split on `'\n'`, keeping a (possibly empty) final fragment. -/
def splitNL : List Char → List (List Char)
  | [] => [[]]
  | c :: cs =>
    if c = NLchar then [] :: splitNL cs
    else
      match splitNL cs with
      | [] => [[c]]
      | l :: ls => (c :: l) :: ls

/-- Python `str.splitlines` on `'\n'`-terminated text. -/
def splitLinesPy (s : List Char) : List (List Char) :=
  if s = [] then []
  else if s.getLast? = some NLchar then (splitNL s).dropLast
  else splitNL s

/-- `"\n".join(lines)`. -/
def joinWithNL : List (List Char) → List Char
  | [] => []
  | [l] => l
  | l :: ls => l ++ NLchar :: joinWithNL ls

/-- `"\n".join(lines) + "\n"` (line 64 of `dfas.py`). -/
def joinLinesPy (ls : List (List Char)) : List Char :=
  joinWithNL ls ++ [NLchar]

/-- The marker line `# AUTOGENERATED BEGINS`. -/
def markerLine : List Char := "# AUTOGENERATED BEGINS".toList

/-- `lines.index("# AUTOGENERATED BEGINS")`: the index of the first
occurrence, `none` when absent (Python raises `ValueError`). -/
def findMarker : List (List Char) → Option Nat
  | [] => none
  | l :: ls => if l = markerLine then some 0 else (findMarker ls).map (· + 1)

/-- Python `repr` of a simple string (no quotes or escapes inside). -/
def pyReprStr (s : List Char) : List Char :=
  Char.ofNat 39 :: s ++ [Char.ofNat 39]

/-- One generated registry line
`SHRINKING_DFAS[%r] = %r # noqa: E501` (line 59 of `dfas.py`). -/
def entryLine (k v : List Char) : List Char :=
  "SHRINKING_DFAS[".toList ++ pyReprStr k ++ "] = ".toList ++ v ++ " # noqa: E501".toList

/-- Lexicographic `≤` on rendered strings (Python string comparison by
code point). -/
def charListLe : List Char → List Char → Bool
  | [], _ => true
  | _ :: _, [] => false
  | a :: as, b :: bs => if a < b then true else if b < a then false else charListLe as bs

/-- `sorted(SHRINKING_DFAS.items())`: sort the registry entries by name
(the names are unique dict keys, so the tuple comparison never reaches the
values). -/
def sortPairs (rs : List (List Char × List Char)) : List (List Char × List Char) :=
  List.insertionSort (fun a b => charListLe a.1 b.1 = true) rs

/-- `update_learned_dfas`: re-read contents split into lines, locate the
marker, drop everything after it, regenerate the autogenerated section,
and report the new contents together with whether the guarded write on
lines 66-68 happens (exactly when the new contents differ from what was
read).  `none` models the `ValueError` from `lines.index` when the marker
is missing. -/
def updateLearnedDfas (source : List Char) (registry : List (List Char × List Char)) :
    Option (List Char × Bool) :=
  match findMarker (splitLinesPy source) with
  | none => none
  | some i =>
    let kept := (splitLinesPy source).take (i + 1)
    let newLines := kept ++ [[], "# fmt: off".toList, []] ++
      (sortPairs registry).map (fun kv => entryLine kv.1 kv.2) ++ [[], "# fmt: on".toList]
    let newSource := joinLinesPy newLines
    some (newSource, decide (newSource ≠ source))

theorem splitNL_ne_nil (s : List Char) : splitNL s ≠ [] := by
  cases s with
  | nil => simp [splitNL]
  | cons c cs =>
    by_cases h : c = NLchar
    · simp [splitNL, h]
    · simp only [splitNL, if_neg h]
      split <;> simp

theorem not_NL_mem_splitNL (s : List Char) : ∀ l ∈ splitNL s, NLchar ∉ l := by
  induction s with
  | nil => simp [splitNL]
  | cons c cs ih =>
    by_cases h : c = NLchar
    · simp only [splitNL, if_pos h, List.mem_cons]
      rintro l (rfl | hl)
      · simp
      · exact ih l hl
    · simp only [splitNL, if_neg h]
      split
      · rename_i heq
        exact absurd heq (splitNL_ne_nil cs)
      · rename_i l0 ls0 heq
        have hl0 : NLchar ∉ l0 := ih l0 (by rw [heq]; exact List.mem_cons_self l0 ls0)
        intro l hl
        rcases List.mem_cons.mp hl with rfl | hl'
        · intro hmem
          rcases List.mem_cons.mp hmem with heq' | hmem'
          · exact h heq'.symm
          · exact hl0 hmem'
        · exact ih l (by rw [heq]; exact List.mem_cons_of_mem l0 hl')

theorem splitNL_append_line (l rest : List Char) (h : NLchar ∉ l) :
    splitNL (l ++ NLchar :: rest) = l :: splitNL rest := by
  induction l with
  | nil => simp [splitNL]
  | cons c cs ih =>
    have hc : c ≠ NLchar := fun hc => h (hc ▸ List.mem_cons_self c cs)
    have hcs : NLchar ∉ cs := fun hm => h (List.mem_cons_of_mem c hm)
    rw [List.cons_append]
    rw [splitNL]
    rw [if_neg hc, ih hcs]

theorem splitNL_joinWithNL (ls : List (List Char)) (hne : ls ≠ [])
    (hnl : ∀ l ∈ ls, NLchar ∉ l) :
    splitNL (joinWithNL ls ++ [NLchar]) = ls ++ [[]] := by
  induction ls with
  | nil => exact absurd rfl hne
  | cons l rest ih =>
    cases rest with
    | nil =>
      simp only [joinWithNL]
      rw [splitNL_append_line l [] (hnl l (List.mem_cons_self l []))]
      rfl
    | cons l2 rest2 =>
      have hj : joinWithNL (l :: l2 :: rest2) = l ++ NLchar :: joinWithNL (l2 :: rest2) := rfl
      rw [hj, List.append_assoc, List.cons_append,
        splitNL_append_line l _ (hnl l (List.mem_cons_self l _)),
        ih (by simp) (fun x hx => hnl x (List.mem_cons_of_mem l hx))]
      rfl

/-- Joining lines with `'\n'` and re-splitting recovers the lines. -/
theorem splitLinesPy_joinLinesPy (ls : List (List Char)) (hne : ls ≠ [])
    (hnl : ∀ l ∈ ls, NLchar ∉ l) :
    splitLinesPy (joinLinesPy ls) = ls := by
  have hne2 : joinWithNL ls ++ [NLchar] ≠ [] := by simp
  have hlast : (joinWithNL ls ++ [NLchar]).getLast? = some NLchar := by
    rw [List.getLast?_concat]
  simp only [splitLinesPy, joinLinesPy]
  rw [if_neg hne2, if_pos hlast, splitNL_joinWithNL ls hne hnl, List.dropLast_concat]

theorem not_NL_mem_splitLinesPy (s : List Char) : ∀ l ∈ splitLinesPy s, NLchar ∉ l := by
  intro l hl
  unfold splitLinesPy at hl
  split at hl
  · simp at hl
  · split at hl
    · exact not_NL_mem_splitNL s l ((List.dropLast_sublist _).subset hl)
    · exact not_NL_mem_splitNL s l hl

theorem findMarker_lt_length (ls : List (List Char)) (i : Nat)
    (h : findMarker ls = some i) : i < ls.length := by
  induction ls generalizing i with
  | nil => simp [findMarker] at h
  | cons x xs ih =>
    unfold findMarker at h
    split at h
    · simp only [Option.some.injEq] at h
      simp [← h]
    · cases h' : findMarker xs with
      | none => rw [h'] at h; simp at h
      | some j =>
        rw [h'] at h
        simp only [Option.map_some'] at h
        have h2 : j + 1 = i := by simpa using h
        have := ih j h'
        simp only [List.length_cons]
        omega

theorem charListLe_total (a b : List Char) :
    charListLe a b = true ∨ charListLe b a = true := by
  induction a generalizing b with
  | nil => left; rfl
  | cons x xs ih =>
    cases b with
    | nil => right; rfl
    | cons y ys =>
      by_cases h1 : x < y
      · left; simp [charListLe, h1]
      · by_cases h2 : y < x
        · right; simp [charListLe, h2]
        · rcases ih ys with h | h
          · left; simp [charListLe, h1, h2, h]
          · right; simp [charListLe, h1, h2, h]

theorem charListLe_trans (a b c : List Char)
    (h1 : charListLe a b = true) (h2 : charListLe b c = true) :
    charListLe a c = true := by
  induction a generalizing b c with
  | nil => rfl
  | cons x xs ih =>
    cases b with
    | nil => simp [charListLe] at h1
    | cons y ys =>
      cases c with
      | nil => simp [charListLe] at h2
      | cons z zs =>
        simp only [charListLe] at h1 h2 ⊢
        by_cases hxy : x < y
        · by_cases hyz : y < z
          · rw [if_pos (lt_trans hxy hyz)]
          · by_cases hzy : z < y
            · rw [if_neg hyz, if_pos hzy] at h2
              exact absurd h2 (by simp)
            · have heq : y = z := le_antisymm (not_lt.mp hzy) (not_lt.mp hyz)
              rw [if_pos (heq ▸ hxy)]
        · by_cases hyx : y < x
          · rw [if_neg hxy, if_pos hyx] at h1
            exact absurd h1 (by simp)
          · have hxeq : x = y := le_antisymm (not_lt.mp hyx) (not_lt.mp hxy)
            rw [if_neg hxy, if_neg hyx] at h1
            by_cases hyz : y < z
            · rw [if_pos (hxeq ▸ hyz)]
            · by_cases hzy : z < y
              · rw [if_neg hyz, if_pos hzy] at h2
                exact absurd h2 (by simp)
              · have hyeq : y = z := le_antisymm (not_lt.mp hzy) (not_lt.mp hyz)
                rw [if_neg hyz, if_neg hzy] at h2
                have hxz : ¬ x < z := by rw [hxeq, hyeq]; exact lt_irrefl z
                have hzx : ¬ z < x := by rw [hxeq, hyeq]; exact lt_irrefl z
                rw [if_neg hxz, if_neg hzx]
                exact ih ys zs h1 h2

/-- The generated registry section is sorted by name. -/
theorem sortPairs_sorted (rs : List (List Char × List Char)) :
    List.Pairwise (fun a b => charListLe a.1 b.1 = true) (sortPairs rs) := by
  haveI hT : IsTotal (List Char × List Char) (fun a b => charListLe a.1 b.1 = true) :=
    ⟨fun a b => charListLe_total a.1 b.1⟩
  haveI hR : IsTrans (List Char × List Char) (fun a b => charListLe a.1 b.1 = true) :=
    ⟨fun a b c => charListLe_trans a.1 b.1 c.1⟩
  exact List.sorted_insertionSort _ rs

theorem sortPairs_perm (rs : List (List Char × List Char)) :
    (sortPairs rs).Perm rs :=
  List.perm_insertionSort _ rs

theorem not_NL_entryLine (k v : List Char) (hk : NLchar ∉ k) (hv : NLchar ∉ v) :
    NLchar ∉ entryLine k v := by
  intro h
  simp only [entryLine, pyReprStr, List.append_assoc, List.mem_append, List.mem_cons] at h
  rcases h with h | h | h | h | h | h
  · exact absurd h (by decide)
  · rcases h with h | h
    · exact absurd h (by decide)
    · exact hk h
  · exact absurd h (by simp at h; exact absurd h (by decide))
  · exact absurd h (by decide)
  · exact hv h
  · exact absurd h (by decide)

/-- C9: `update_learned_dfas` regenerates only the content after the
marker line: every line of the previously read contents up to and
including the (first occurrence of the) marker is preserved unchanged, the
registry entries are emitted one per line sorted by name (a permutation of
the registry), and the file write is performed exactly when the newly
computed contents differ from the contents that were read. -/
theorem c9_update_learned_dfas (source : List Char)
    (registry : List (List Char × List Char)) (i : Nat)
    (hmark : findMarker (splitLinesPy source) = some i)
    (hreg : ∀ kv ∈ registry, NLchar ∉ kv.1 ∧ NLchar ∉ kv.2) :
    ∃ newSource doWrite, updateLearnedDfas source registry = some (newSource, doWrite) ∧
      (splitLinesPy newSource).take (i + 1) = (splitLinesPy source).take (i + 1) ∧
      splitLinesPy newSource = (splitLinesPy source).take (i + 1) ++
        [[], "# fmt: off".toList, []] ++
        (sortPairs registry).map (fun kv => entryLine kv.1 kv.2) ++
        [[], "# fmt: on".toList] ∧
      ((sortPairs registry).map Prod.fst).Pairwise (fun a b => charListLe a b = true) ∧
      (sortPairs registry).Perm registry ∧
      (doWrite = true ↔ newSource ≠ source) := by
  have hlen : i < (splitLinesPy source).length := findMarker_lt_length _ i hmark
  set kept := (splitLinesPy source).take (i + 1) with hkept
  set entries := (sortPairs registry).map (fun kv => entryLine kv.1 kv.2) with hentries
  set newLines := kept ++ [[], "# fmt: off".toList, []] ++ entries ++
    [[], "# fmt: on".toList] with hnew
  have hne : newLines ≠ [] := by simp [hnew]
  have hnl : ∀ l ∈ newLines, NLchar ∉ l := by
    intro l hl
    rw [hnew] at hl
    rcases List.mem_append.mp hl with hl1 | hl1
    · rcases List.mem_append.mp hl1 with hl2 | hl2
      · rcases List.mem_append.mp hl2 with hl3 | hl3
        · exact not_NL_mem_splitLinesPy source l (List.take_subset _ _ hl3)
        · simp only [List.mem_cons, List.not_mem_nil, or_false] at hl3
          rcases hl3 with rfl | rfl | rfl
          · simp
          · decide
          · simp
      · rw [hentries] at hl2
        simp only [List.mem_map] at hl2
        obtain ⟨kv, hkv, rfl⟩ := hl2
        have hkv' : kv ∈ registry := (sortPairs_perm registry).subset hkv
        exact not_NL_entryLine kv.1 kv.2 (hreg kv hkv').1 (hreg kv hkv').2
    · simp only [List.mem_cons, List.not_mem_nil, or_false] at hl1
      rcases hl1 with rfl | rfl
      · simp
      · decide
  have hround : splitLinesPy (joinLinesPy newLines) = newLines :=
    splitLinesPy_joinLinesPy newLines hne hnl
  have hkeptlen : kept.length = i + 1 := by
    rw [hkept]
    simp
    omega
  refine ⟨joinLinesPy newLines, decide (joinLinesPy newLines ≠ source), ?_, ?_, ?_, ?_, ?_, ?_⟩
  · unfold updateLearnedDfas
    rw [hmark]
  · rw [hround, hnew]
    rw [← hkeptlen]
    rw [List.append_assoc, List.append_assoc]
    rw [List.take_left]
  · rw [hround, hnew]
  · have h := sortPairs_sorted registry
    exact (List.pairwise_map).mpr h
  · exact sortPairs_perm registry
  · exact decide_eq_true_iff

/-- Concrete store contents for the C9 witness. -/
def c9src : List Char := "x = 1\n# AUTOGENERATED BEGINS\nold\n".toList

/-- Concrete registry for the C9 witness (names deliberately unsorted). -/
def c9reg : List (List Char × List Char) :=
  [("b".toList, "B".toList), ("a".toList, "A".toList)]

/-- Witness for C9 at a concrete store and two-entry registry. -/
theorem c9_update_learned_dfas_witness :
    findMarker (splitLinesPy c9src) = some 1 ∧
    (∃ newSource doWrite, updateLearnedDfas c9src c9reg = some (newSource, doWrite) ∧
      (splitLinesPy newSource).take 2 = (splitLinesPy c9src).take 2 ∧
      splitLinesPy newSource = (splitLinesPy c9src).take 2 ++
        [[], "# fmt: off".toList, []] ++
        (sortPairs c9reg).map (fun kv => entryLine kv.1 kv.2) ++
        [[], "# fmt: on".toList] ∧
      ((sortPairs c9reg).map Prod.fst).Pairwise (fun a b => charListLe a b = true) ∧
      (sortPairs c9reg).Perm c9reg ∧
      (doWrite = true ↔ newSource ≠ c9src)) :=
  ⟨by decide, c9_update_learned_dfas c9src c9reg 1 (by decide) (by decide)⟩

/-! ## The DFA data model (spec-modelled)

Modelled from the spec: the module `hypothesis/internal/conjecture/dfa`
(class `ConcreteDFA` with `transition`, `is_dead`, `max_length`,
`count_strings`, `all_matching_strings`, `canonicalise`, `equivalent`,
`matches`) is not under `src/` — only its test suite
`tests/conjecture/test_dfa.py` is.  The definitions below follow §3-§4.1
of the spec: a deterministic automaton over the 256-symbol byte alphabet
whose transition function returns a state or the sentinel `DEAD`
(embedded as `Option`: `none` is `DEAD`), with a start state and an
accepting set fixed at construction.  The sparse/dense representation
switch of `ConcreteDFA` is a pure performance optimization that "must not
change any transition's outcome" (§3), so the model keeps only the
transition function itself.
-/

/-- An automaton with states `Fin n`; bytes are naturals, the byte
alphabet being `0..255`. -/
structure NDFA (n : Nat) where
  trans : Fin n → Nat → Option (Fin n)
  accepting : Fin n → Bool
  start : Fin n

/-- `transition`: from `DEAD` (`none`) every byte leads to `DEAD`. -/
def stepO {n : Nat} (A : NDFA n) : Option (Fin n) → Nat → Option (Fin n)
  | none, _ => none
  | some q, b => A.trans q b

/-- Modelled from the spec §4.1: `count_strings(state, length)` — the
exact number of distinct byte strings of exactly the given length leading
from the state to an accepting state: 1 or 0 at length 0 according to
acceptance, and the sum over all 256 byte transitions at positive length,
`DEAD` contributing 0. -/
def cnt {n : Nat} (A : NDFA n) : Nat → Option (Fin n) → Nat
  | 0, none => 0
  | 0, some q => if A.accepting q then 1 else 0
  | _ + 1, none => 0
  | k + 1, some q => ((List.range 256).map (fun b => cnt A k (A.trans q b))).sum

/-- Walking the transition function over a word of bytes (the fold
underlying `matches`, spec §4.1). -/
def walkO {n : Nat} (A : NDFA n) : Option (Fin n) → List Nat → Option (Fin n)
  | s, [] => s
  | s, b :: bs => walkO A (stepO A s b) bs

/-- `matches` from a given state: walk and test acceptance (`DEAD` never
accepts). -/
def acceptW {n : Nat} (A : NDFA n) (s : Option (Fin n)) (w : List Nat) : Bool :=
  match walkO A s w with
  | none => false
  | some q => A.accepting q

/-- Modelled from the spec §4.1 (`all_matching_strings`): digit selection
for the rank-`k` accepted string of a given length — walk byte values
`0..255` in order; a byte with `count_strings(next_state, remaining)`
completions covers that many ranks. -/
def pickByte {n : Nat} (A : NDFA n) (k0 : Nat) :
    List Nat → Option (Fin n) → Nat → Option (Nat × Nat)
  | [], _, _ => none
  | b :: bs, s, k =>
    let c := cnt A k0 (stepO A s b)
    if k < c then some (b, k) else pickByte A k0 bs s (k - c)

/-- The rank-`k` accepted string of exactly the given length from a state
(spec §4.1): at each position pick the byte whose subtree covers rank `k`
and descend with the residual rank. -/
def kthString {n : Nat} (A : NDFA n) : Nat → Option (Fin n) → Nat → List Nat
  | 0, _, _ => []
  | k + 1, s, r =>
    match pickByte A k (List.range 256) s r with
    | some (b, r') => b :: kthString A k (stepO A s b) r'
    | none => []

/-- The `all_matching_strings()` enumeration restricted to lengths `0 ..
maxLen` (spec §4.1): for each length in increasing order, the
`count_strings` many accepted strings of that length in rank order. -/
def allStringsList {n : Nat} (A : NDFA n) (maxLen : Nat) : List (List Nat) :=
  (List.range (maxLen + 1)).flatMap
    (fun k => (List.range (cnt A k (some A.start))).map (kthString A k (some A.start)))

/-- Modelled from the spec §4.1: `is_dead(state)` — no accepting state is
reachable; equivalently (shortest witnesses never repeat a state) no
string of length at most `n` is accepted. -/
def isDeadO {n : Nat} (A : NDFA n) (s : Option (Fin n)) : Bool :=
  (List.range (n + 1)).all (fun k => cnt A k s == 0)

/-- Modelled from the spec §4.1: `max_length(state)` — the length of the
longest accepted string from the state, `none` standing for infinity.  The
language from a state is unbounded exactly when some accepted string has
length in `[n+1, 2(n+1))` (pumping both ways around a repeated state), so
the check is executable; when bounded, every accepted string is shorter
than `n+1` and the maximum is taken over those lengths, with 0 for a dead
state (a finite, non-negative answer, matching the spec's "non-negative
integer | infinity" and the test suite's
`test_max_length_of_empty_dfa_is_zero`). -/
def maxLengthO {n : Nat} (A : NDFA n) (s : Option (Fin n)) : Option Nat :=
  if (List.range' (n + 1) (n + 1)).any (fun k => 0 < cnt A k s) then none
  else some (((List.range (n + 1)).filter (fun k => 0 < cnt A k s)).foldr max 0)

/-- Shortlex order on byte strings: by length, then lexicographically. -/
def slLt (u v : List Nat) : Prop :=
  u.length < v.length ∨ (u.length = v.length ∧ lexLt u v = true)

/-- A rank below the total count always selects a byte, whose subtree the
residual rank indexes. -/
theorem pickByte_some {n : Nat} (A : NDFA n) (k0 : Nat) :
    ∀ (bs : List Nat) (s : Option (Fin n)) (k : Nat),
      k < (bs.map (fun b => cnt A k0 (stepO A s b))).sum →
      ∃ b r', pickByte A k0 bs s k = some (b, r') ∧
        r' < cnt A k0 (stepO A s b) ∧ b ∈ bs := by
  intro bs
  induction bs with
  | nil => intro s k h; simp at h
  | cons b bs ih =>
    intro s k h
    simp only [List.map_cons, List.sum_cons] at h
    by_cases hk : k < cnt A k0 (stepO A s b)
    · exact ⟨b, k, by simp [pickByte, hk], hk, List.mem_cons_self b bs⟩
    · have h' : k - cnt A k0 (stepO A s b) <
          (bs.map (fun x => cnt A k0 (stepO A s x))).sum := by omega
      obtain ⟨b', r', hpick, hr', hmem⟩ := ih s (k - cnt A k0 (stepO A s b)) h'
      exact ⟨b', r', by simp [pickByte, hk, hpick], hr', List.mem_cons_of_mem b hmem⟩

/-- A rank below the count yields a string of exactly the requested
length. -/
theorem kthString_length {n : Nat} (A : NDFA n) :
    ∀ (k : Nat) (s : Option (Fin n)) (r : Nat), r < cnt A k s →
      (kthString A k s r).length = k := by
  intro k
  induction k with
  | zero => intro s r _; rfl
  | succ k ih =>
    intro s r hr
    cases s with
    | none => simp [cnt] at hr
    | some q =>
      have hr' : r < ((List.range 256).map (fun b => cnt A k (stepO A (some q) b))).sum := by
        simpa [cnt, stepO] using hr
      obtain ⟨b, r', hpick, hlt, _⟩ := pickByte_some A k (List.range 256) (some q) r hr'
      simp only [kthString, hpick]
      simp [ih (stepO A (some q) b) r' hlt]

/-- A selected byte always comes from the scanned list. -/
theorem pickByte_mem {n : Nat} (A : NDFA n) (k0 : Nat) :
    ∀ (bs : List Nat) (s : Option (Fin n)) (k b r : Nat),
      pickByte A k0 bs s k = some (b, r) → b ∈ bs := by
  intro bs
  induction bs with
  | nil => intro s k b r h; simp [pickByte] at h
  | cons x xs ih =>
    intro s k b r h
    simp only [pickByte] at h
    by_cases hc : k < cnt A k0 (stepO A s x)
    · rw [if_pos hc] at h
      obtain ⟨rfl, rfl⟩ : x = b ∧ k = r := by simpa using h
      exact List.mem_cons_self x xs
    · rw [if_neg hc] at h
      exact List.mem_cons_of_mem x (ih s _ b r h)

/-- Byte selection is monotone in the rank: a smaller rank picks an
earlier byte, or the same byte with a smaller residual rank. -/
theorem pickByte_mono {n : Nat} (A : NDFA n) (k0 : Nat) :
    ∀ (bs : List Nat) (s : Option (Fin n)) (k1 k2 : Nat) (b1 r1 b2 r2 : Nat),
      bs.Pairwise (· < ·) → k1 < k2 →
      pickByte A k0 bs s k1 = some (b1, r1) →
      pickByte A k0 bs s k2 = some (b2, r2) →
      b1 < b2 ∨ (b1 = b2 ∧ r1 < r2) := by
  intro bs
  induction bs with
  | nil => intro s k1 k2 b1 r1 b2 r2 _ _ h1; simp [pickByte] at h1
  | cons b bs ih =>
    intro s k1 k2 b1 r1 b2 r2 hpw hk h1 h2
    simp only [pickByte] at h1 h2
    by_cases hc1 : k1 < cnt A k0 (stepO A s b)
    · rw [if_pos hc1] at h1
      obtain ⟨rfl, rfl⟩ : b = b1 ∧ k1 = r1 := by
        simpa using h1
      by_cases hc2 : k2 < cnt A k0 (stepO A s b)
      · rw [if_pos hc2] at h2
        obtain ⟨rfl, rfl⟩ : b = b2 ∧ k2 = r2 := by
          simpa using h2
        exact Or.inr ⟨rfl, hk⟩
      · rw [if_neg hc2] at h2
        have hmem : b2 ∈ bs := pickByte_mem A k0 bs s _ b2 r2 h2
        exact Or.inl ((List.pairwise_cons.mp hpw).1 b2 hmem)
    · rw [if_neg hc1] at h1
      have hc2 : ¬ k2 < cnt A k0 (stepO A s b) := by omega
      rw [if_neg hc2] at h2
      exact ih s _ _ b1 r1 b2 r2 (List.pairwise_cons.mp hpw).2 (by omega) h1 h2

/-- Within a length, enumeration is strictly lexicographically
increasing in the rank. -/
theorem kthString_lexLt {n : Nat} (A : NDFA n) :
    ∀ (k : Nat) (s : Option (Fin n)) (r1 r2 : Nat), r1 < r2 → r2 < cnt A k s →
      lexLt (kthString A k s r1) (kthString A k s r2) = true := by
  intro k
  induction k with
  | zero =>
    intro s r1 r2 h1 h2
    exfalso
    cases s with
    | none => simp [cnt] at h2
    | some q =>
      simp only [cnt] at h2
      split at h2 <;> omega
  | succ k ih =>
    intro s r1 r2 h1 h2
    cases s with
    | none => simp [cnt] at h2
    | some q =>
      have h2' : r2 < ((List.range 256).map (fun b => cnt A k (stepO A (some q) b))).sum := by
        simpa [cnt, stepO] using h2
      obtain ⟨b2, r2', hp2, hlt2, _⟩ := pickByte_some A k (List.range 256) (some q) r2 h2'
      obtain ⟨b1, r1', hp1, hlt1, _⟩ :=
        pickByte_some A k (List.range 256) (some q) r1 (by omega)
      rcases pickByte_mono A k (List.range 256) (some q) r1 r2 b1 r1' b2 r2'
          (List.pairwise_lt_range 256) h1 hp1 hp2 with hb | ⟨rfl, hr⟩
      · simp only [kthString, hp1, hp2, lexLt]
        rw [if_pos hb]
      · simp only [kthString, hp1, hp2, lexLt]
        rw [if_neg (lt_irrefl b1), if_neg (lt_irrefl b1)]
        exact ih (stepO A (some q) b1) r1' r2' hr hlt2

/-- Every string in the length-`k` block of the enumeration has length
`k`. -/
theorem mem_block_length {n : Nat} (A : NDFA n) (k : Nat) (x : List Nat)
    (hx : x ∈ (List.range (cnt A k (some A.start))).map (kthString A k (some A.start))) :
    x.length = k := by
  simp only [List.mem_map, List.mem_range] at hx
  obtain ⟨r, hr, rfl⟩ := hx
  exact kthString_length A k (some A.start) r hr

/-- The enumeration is sorted in strictly ascending shortlex order. -/
theorem allStringsList_sorted {n : Nat} (A : NDFA n) (maxLen : Nat) :
    (allStringsList A maxLen).Pairwise slLt := by
  unfold allStringsList
  rw [List.pairwise_flatMap]
  constructor
  · intro k _
    rw [List.pairwise_map]
    have hpw := List.pairwise_lt_range (cnt A k (some A.start))
    refine hpw.imp_of_mem ?_
    intro r1 r2 h1 h2 hlt
    simp only [List.mem_range] at h1 h2
    right
    refine ⟨?_, kthString_lexLt A k (some A.start) r1 r2 hlt h2⟩
    rw [kthString_length A k _ r1 h1, kthString_length A k _ r2 h2]
  · have hpw := List.pairwise_lt_range (maxLen + 1)
    refine hpw.imp_of_mem ?_
    intro k1 k2 _ _ hlt x hx y hy
    left
    rw [mem_block_length A k1 x hx, mem_block_length A k2 y hy]
    exact hlt

theorem cnt_none {n : Nat} (A : NDFA n) : ∀ k, cnt A k (none : Option (Fin n)) = 0 := by
  intro k
  cases k <;> rfl

theorem sum_map_zero {l : List Nat} {f : Nat → Nat} (h : ∀ b ∈ l, f b = 0) :
    (l.map f).sum = 0 := by
  induction l with
  | nil => rfl
  | cons x xs ih =>
    simp only [List.map_cons, List.sum_cons, h x (List.mem_cons_self x xs), Nat.zero_add]
    exact ih (fun b hb => h b (List.mem_cons_of_mem x hb))

/-- The example automaton of the spec (§8) and of
`test_enumeration_when_sizes_do_not_agree`: states `{0,1,2,3}`,
transitions `0 --0--> 1`, `0 --1--> 2`, `2 --1--> 3`, accepting `{1,3}`. -/
def M6 : NDFA 4 :=
  { trans := fun q b =>
      if q.val = 0 ∧ b = 0 then some ⟨1, by omega⟩
      else if q.val = 0 ∧ b = 1 then some ⟨2, by omega⟩
      else if q.val = 2 ∧ b = 1 then some ⟨3, by omega⟩
      else none
    accepting := fun q => q.val == 1 || q.val == 3
    start := ⟨0, by omega⟩ }

theorem M6_cnt_one : ∀ k, cnt M6 (k + 1) (some ⟨1, by omega⟩) = 0 := by
  intro k
  simp only [cnt]
  apply sum_map_zero
  intro b _
  have ht : M6.trans ⟨1, by omega⟩ b = none := by
    simp only [M6]
    norm_num
  rw [ht, cnt_none]

theorem M6_cnt_three : ∀ k, cnt M6 (k + 1) (some ⟨3, by omega⟩) = 0 := by
  intro k
  simp only [cnt]
  apply sum_map_zero
  intro b _
  have ht : M6.trans ⟨3, by omega⟩ b = none := by
    simp only [M6]
    norm_num
  rw [ht, cnt_none]

theorem M6_cnt_two : ∀ k, cnt M6 (k + 2) (some ⟨2, by omega⟩) = 0 := by
  intro k
  simp only [cnt]
  apply sum_map_zero
  intro b _
  by_cases hb : b = 1
  · have ht : M6.trans ⟨2, by omega⟩ b = some ⟨3, by omega⟩ := by
      simp only [M6, hb]
      norm_num
    rw [ht]
    exact M6_cnt_three k
  · have ht : M6.trans ⟨2, by omega⟩ b = none := by
      simp only [M6]
      norm_num [hb]
    rw [ht, cnt_none]

theorem M6_cnt_start : ∀ k, cnt M6 (k + 3) (some M6.start) = 0 := by
  intro k
  simp only [cnt]
  apply sum_map_zero
  intro b _
  by_cases hb0 : b = 0
  · have ht : M6.trans M6.start b = some ⟨1, by omega⟩ := by
      simp only [M6, hb0]
      norm_num
    rw [ht]
    exact M6_cnt_one (k + 1)
  · by_cases hb1 : b = 1
    · have ht : M6.trans M6.start b = some ⟨2, by omega⟩ := by
        simp only [M6, hb1]
        norm_num [hb0]
      rw [ht]
      exact M6_cnt_two k
    · have ht : M6.trans M6.start b = none := by
        simp only [M6]
        norm_num [hb0, hb1]
      rw [ht, cnt_none]

set_option maxRecDepth 10000 in
/-- The length-2 horizon of the enumeration of `M6`, by computation. -/
theorem M6_allStrings_two : allStringsList M6 2 = [[0], [1, 1]] := by decide

set_option maxRecDepth 10000 in
/-- From length 2 on, the enumeration of `M6` is complete: exactly
`[0x00]` then `[0x01,0x01]`. -/
theorem M6_allStrings : ∀ L, 2 ≤ L → allStringsList M6 L = [[0], [1, 1]] := by
  intro L hL
  induction L with
  | zero => omega
  | succ K ih =>
    rcases Nat.lt_or_ge K 2 with h2 | h2
    · have hK : K = 1 := by omega
      subst hK
      rw [show (1 : Nat) + 1 = 2 by norm_num]
      exact M6_allStrings_two
    · have hc : cnt M6 (K + 1) (some M6.start) = 0 := by
        obtain ⟨m, hm⟩ : ∃ m, K + 1 = m + 3 := ⟨K - 2, by omega⟩
        rw [hm]
        exact M6_cnt_start m
      have hsplit : allStringsList M6 (K + 1) = allStringsList M6 K ++
          (List.range (cnt M6 (K + 1) (some M6.start))).map
            (kthString M6 (K + 1) (some M6.start)) := by
        unfold allStringsList
        rw [List.range_succ, List.flatMap_append]
        simp
      rw [hsplit, hc]
      simp [ih h2]

/-- C6: `all_matching_strings()` enumerates in ascending shortlex order
(any automaton, any horizon), and the automaton with states `{0,1,2,3}`,
transitions `0--0-->1`, `0--1-->2`, `2--1-->3`, accepting `{1,3}` yields
exactly the two strings `0x00` and `0x0101`, in that order: its
enumeration up to any length `L ≥ 2` is `[[0x00], [0x01,0x01]]` (there are
no accepted strings of length greater than 2). -/
theorem c6_enumeration_shortlex :
    (∀ (m : Nat) (A : NDFA m) (L : Nat), (allStringsList A L).Pairwise slLt) ∧
    (∀ L, 2 ≤ L → allStringsList M6 L = [[0], [1, 1]]) :=
  ⟨fun _ A L => allStringsList_sorted A L, M6_allStrings⟩

set_option maxRecDepth 10000 in
/-- Witness for C6 at horizon `L = 2`. -/
theorem c6_enumeration_shortlex_witness :
    (allStringsList M6 2).Pairwise slLt ∧
      (2 ≤ 2 ∧ allStringsList M6 2 = [[0], [1, 1]]) :=
  ⟨c6_enumeration_shortlex.1 4 M6 2, by decide, c6_enumeration_shortlex.2 2 (by decide)⟩

theorem sum_map_constant (c : Nat) : ∀ (l : List Nat), (l.map (fun _ => c)).sum = l.length * c := by
  intro l
  induction l with
  | nil => simp
  | cons x xs ih =>
    simp only [List.map_cons, List.sum_cons, List.length_cons, ih]
    ring

/-- Modelled from the spec (§8 "Enumeration scales") and
`test_enumeration_of_very_long_strings`: the automaton accepting exactly
the strings of a fixed length `L` over the full 256-symbol byte
alphabet. -/
def fixedLenDFA (L : Nat) : NDFA (L + 1) :=
  { trans := fun j b => if h : j.val < L ∧ b < 256 then some ⟨j.val + 1, by omega⟩ else none
    accepting := fun j => j.val == L
    start := ⟨0, by omega⟩ }

/-- Counting in the fixed-length automaton: from state `j` there are
`256 ^ k` strings of length `k` exactly when `j + k = L`, else none. -/
theorem fixedLen_cnt (L : Nat) : ∀ (k : Nat) (j : Fin (L + 1)),
    cnt (fixedLenDFA L) k (some j) = if j.val + k = L then 256 ^ k else 0 := by
  intro k
  induction k with
  | zero =>
    intro j
    by_cases h : j.val = L
    · simp [cnt, fixedLenDFA, h]
    · simp [cnt, fixedLenDFA, h]
  | succ k ih =>
    intro j
    by_cases hj : j.val < L
    · have hmap : (List.range 256).map
          (fun b => cnt (fixedLenDFA L) k ((fixedLenDFA L).trans j b)) =
          (List.range 256).map (fun _ => if j.val + 1 + k = L then 256 ^ k else 0) := by
        apply List.map_congr_left
        intro b hb
        have hb' : b < 256 := List.mem_range.mp hb
        have ht : (fixedLenDFA L).trans j b = some ⟨j.val + 1, by omega⟩ := by
          simp [fixedLenDFA, hj, hb']
        rw [ht, ih ⟨j.val + 1, by omega⟩]
      simp only [cnt, hmap, sum_map_constant, List.length_range]
      by_cases hc : j.val + 1 + k = L
      · rw [if_pos hc, if_pos (show j.val + (k + 1) = L by omega)]
        try rw [pow_succ]
        try ring
      · rw [if_neg hc, if_neg (show ¬ j.val + (k + 1) = L by omega)]
        try ring
    · have hmap : ((List.range 256).map
          (fun b => cnt (fixedLenDFA L) k ((fixedLenDFA L).trans j b))).sum = 0 := by
        apply sum_map_zero
        intro b _
        have ht : (fixedLenDFA L).trans j b = none := by
          simp [fixedLenDFA, hj]
        rw [ht, cnt_none]
      simp only [cnt, hmap]
      rw [if_neg (show ¬ j.val + (k + 1) = L by omega)]

/-- Uniform byte selection over a contiguous byte range: when every byte
covers exactly `c` ranks, rank `r` picks byte `b0 + r / c` with residual
rank `r % c`. -/
theorem pickByte_range' {n : Nat} (A : NDFA n) (k0 c : Nat) (s : Option (Fin n))
    (hc : 0 < c) :
    ∀ (m b0 r : Nat), (∀ b, b0 ≤ b → b < b0 + m → cnt A k0 (stepO A s b) = c) →
      r < m * c →
      pickByte A k0 (List.range' b0 m) s r = some (b0 + r / c, r % c) := by
  intro m
  induction m with
  | zero => intro b0 r _ hr; simp at hr
  | succ m ih =>
    intro b0 r hall hr
    rw [List.range'_succ]
    have hb0 : cnt A k0 (stepO A s b0) = c := hall b0 (Nat.le_refl b0) (by omega)
    by_cases hrc : r < c
    · have hdiv : r / c = 0 := Nat.div_eq_of_lt hrc
      have hmod : r % c = r := Nat.mod_eq_of_lt hrc
      simp only [pickByte, hb0, if_pos hrc, hdiv, hmod, Nat.add_zero]
    · have hall' : ∀ b, b0 + 1 ≤ b → b < b0 + 1 + m → cnt A k0 (stepO A s b) = c :=
        fun b h1 h2 => hall b (by omega) (by omega)
      rw [Nat.succ_mul] at hr
      have hr' : r - c < m * c := by omega
      obtain ⟨q, s', hqs, hs'⟩ : ∃ q s', r = s' + c * q ∧ s' < c :=
        ⟨r / c, r % c, by rw [Nat.add_comm, Nat.div_add_mod], Nat.mod_lt _ hc⟩
      have hq0 : q ≠ 0 := by
        rintro rfl
        rw [Nat.mul_zero, Nat.add_zero] at hqs
        omega
      obtain ⟨q', rfl⟩ : ∃ q', q = q' + 1 := ⟨q - 1, by omega⟩
      have hmulsucc : c * (q' + 1) = c * q' + c := Nat.mul_succ c q'
      have hdivr : r / c = q' + 1 := by
        rw [hqs, Nat.add_mul_div_left _ _ hc, Nat.div_eq_of_lt hs', Nat.zero_add]
      have hmodr : r % c = s' := by
        rw [hqs, Nat.mul_comm, Nat.add_mul_mod_self_right, Nat.mod_eq_of_lt hs']
      have hsub : r - c = s' + c * q' := by omega
      have hdivs : (r - c) / c = q' := by
        rw [hsub, Nat.add_mul_div_left _ _ hc, Nat.div_eq_of_lt hs', Nat.zero_add]
      have hmods : (r - c) % c = s' := by
        rw [hsub, Nat.mul_comm, Nat.add_mul_mod_self_right, Nat.mod_eq_of_lt hs']
      have hrec := ih (b0 + 1) (r - c) hall' hr'
      rw [hdivs, hmods] at hrec
      simp only [pickByte, hb0, if_neg hrc, hrec, hdivr, hmodr]
      congr 2
      omega

/-- The number `r` written big-endian in base 256, padded to `k` digits. -/
def toDigits : Nat → Nat → List Nat
  | 0, _ => []
  | k + 1, r => r / 256 ^ k :: toDigits k (r % 256 ^ k)

/-- `int.from_bytes(s, "big")`. -/
def fromBigEndian (w : List Nat) : Nat :=
  w.foldl (fun a b => a * 256 + b) 0

theorem toDigits_length : ∀ (k r : Nat), (toDigits k r).length = k := by
  intro k
  induction k with
  | zero => intro r; rfl
  | succ k ih => intro r; simp [toDigits, ih]

theorem foldl_toDigits (k : Nat) : ∀ (r a : Nat), r < 256 ^ k →
    (toDigits k r).foldl (fun x b => x * 256 + b) a = a * 256 ^ k + r := by
  induction k with
  | zero =>
    intro r a hr
    rw [pow_zero] at hr
    simp only [toDigits, List.foldl_nil, pow_zero]
    omega
  | succ k ih =>
    intro r a hr
    have hmod : r % 256 ^ k < 256 ^ k := Nat.mod_lt _ (by positivity)
    simp only [toDigits, List.foldl_cons]
    rw [ih (r % 256 ^ k) (a * 256 + r / 256 ^ k) hmod]
    have hdm := Nat.div_add_mod r (256 ^ k)
    have harith : (a * 256 + r / 256 ^ k) * 256 ^ k + r % 256 ^ k =
        a * (256 ^ k * 256) + (256 ^ k * (r / 256 ^ k) + r % 256 ^ k) := by ring
    rw [harith, hdm, pow_succ]

/-- The rank-`r` string of the fixed-length automaton is exactly `r` in
big-endian base 256, padded to the remaining length. -/
theorem fixedLen_kth (L : Nat) : ∀ (k : Nat) (j : Fin (L + 1)) (r : Nat),
    j.val + k = L → r < 256 ^ k →
    kthString (fixedLenDFA L) k (some j) r = toDigits k r := by
  intro k
  induction k with
  | zero => intro j r _ _; rfl
  | succ k ih =>
    intro j r hjk hr
    have hj : j.val < L := by omega
    have hpow : 0 < (256 : Nat) ^ k := by positivity
    have hall : ∀ b, 0 ≤ b → b < 0 + 256 →
        cnt (fixedLenDFA L) k (stepO (fixedLenDFA L) (some j) b) = 256 ^ k := by
      intro b _ hb
      have hb' : b < 256 := by omega
      have ht : (fixedLenDFA L).trans j b = some ⟨j.val + 1, by omega⟩ := by
        simp [fixedLenDFA, hj, hb']
      simp only [stepO, ht, fixedLen_cnt]
      rw [if_pos (by omega)]
    have hrm : r < 256 * 256 ^ k := by
      rw [pow_succ] at hr
      omega
    have hpick := pickByte_range' (fixedLenDFA L) k (256 ^ k) (some j) hpow 256 0 r hall
      (by omega)
    have hbyte : r / 256 ^ k < 256 := (Nat.div_lt_iff_lt_mul hpow).mpr (by omega)
    simp only [kthString, List.range_eq_range', hpick, Nat.zero_add]
    have ht : stepO (fixedLenDFA L) (some j) (r / 256 ^ k) = some ⟨j.val + 1, by omega⟩ := by
      simp [stepO, fixedLenDFA, hj, hbyte]
    rw [ht, ih ⟨j.val + 1, by omega⟩ (r % 256 ^ k) (by simp; omega) (Nat.mod_lt _ hpow)]
    rfl

/-- The whole enumeration of the fixed-length automaton is the single
length-`L` block. -/
theorem fixedLen_allStrings (L : Nat) :
    allStringsList (fixedLenDFA L) L =
      (List.range (256 ^ L)).map (kthString (fixedLenDFA L) L (some (fixedLenDFA L).start)) := by
  unfold allStringsList
  rw [List.range_succ, List.flatMap_append]
  have h1 : (List.range L).flatMap
      (fun k => (List.range (cnt (fixedLenDFA L) k (some (fixedLenDFA L).start))).map
        (kthString (fixedLenDFA L) k (some (fixedLenDFA L).start))) = [] := by
    rw [List.flatMap_eq_nil_iff]
    intro k hk
    have hz : cnt (fixedLenDFA L) k (some (fixedLenDFA L).start) = 0 := by
      rw [fixedLen_cnt]
      rw [if_neg ?_]
      have := List.mem_range.mp hk
      show ¬ ((fixedLenDFA L).start.val + k = L)
      have hs : (fixedLenDFA L).start.val = 0 := rfl
      omega
    rw [hz]
    rfl
  have h2 : cnt (fixedLenDFA L) L (some (fixedLenDFA L).start) = 256 ^ L := by
    rw [fixedLen_cnt]
    rw [if_pos ?_]
    show (fixedLenDFA L).start.val + L = L
    have hs : (fixedLenDFA L).start.val = 0 := rfl
    omega
  rw [h1, List.nil_append]
  simp [h2]

/-- C5: for the automaton accepting exactly the strings of fixed length
`L` over the full 256-symbol byte alphabet, the `i`-th string of the
enumeration (for every `i < 256^L`, which covers each `i < 1000` whenever
they exist) is the number `i` written as a big-endian base-256 numeral
padded to `L` bytes: it has length `L` and decodes back to `i`. -/
theorem c5_fixed_length_enumeration (L i : Nat) (h : i < 256 ^ L) :
    (allStringsList (fixedLenDFA L) L)[i]? = some (toDigits L i) ∧
    (toDigits L i).length = L ∧ fromBigEndian (toDigits L i) = i := by
  have hkth : kthString (fixedLenDFA L) L (some (fixedLenDFA L).start) i = toDigits L i :=
    fixedLen_kth L L (fixedLenDFA L).start i (by simp [fixedLenDFA]) h
  refine ⟨?_, toDigits_length L i, ?_⟩
  · rw [fixedLen_allStrings, List.getElem?_map, List.getElem?_range h]
    simp [hkth]
  · unfold fromBigEndian
    rw [foldl_toDigits L i 0 h]
    omega

/-- Witness for C5 at `L = 1`, `i = 3`. -/
theorem c5_fixed_length_enumeration_witness :
    3 < 256 ^ 1 ∧
    ((allStringsList (fixedLenDFA 1) 1)[3]? = some (toDigits 1 3) ∧
      (toDigits 1 3).length = 1 ∧ fromBigEndian (toDigits 1 3) = 3) :=
  ⟨by norm_num, c5_fixed_length_enumeration 1 3 (by norm_num)⟩

/-! ## C2: `max_length` versus `count_strings`

The bridge to Mathlib's `DFA` (over the alphabet `Fin 256`, with state
space `Option (Fin n)` — `none` playing `DEAD`) provides the pumping
argument needed to justify the executable infinity check of
`maxLengthO`. -/

/-- The Mathlib view of the automaton, started at an arbitrary state. -/
def toDFA {n : Nat} (A : NDFA n) (s : Option (Fin n)) : DFA (Fin 256) (Option (Fin n)) :=
  { step := fun t b => stepO A t b.val
    start := s
    accept := { t | ∃ q, t = some q ∧ A.accepting q = true } }

theorem toDFA_evalFrom {n : Nat} (A : NDFA n) (s : Option (Fin n)) :
    ∀ (w : List (Fin 256)) (t : Option (Fin n)),
      (toDFA A s).evalFrom t w = walkO A t (w.map Fin.val) := by
  intro w
  induction w with
  | nil => intro t; rfl
  | cons b bs ih =>
    intro t
    simp only [List.map_cons, walkO]
    rw [← ih (stepO A t b.val)]
    rfl

theorem toDFA_accepts {n : Nat} (A : NDFA n) (s : Option (Fin n)) (w : List (Fin 256)) :
    w ∈ (toDFA A s).accepts ↔ acceptW A s (w.map Fin.val) = true := by
  rw [DFA.mem_accepts]
  show (toDFA A s).evalFrom s w ∈ (toDFA A s).accept ↔ _
  rw [toDFA_evalFrom]
  unfold acceptW
  cases walkO A s (w.map Fin.val) with
  | none =>
    constructor
    · rintro ⟨q, hq, _⟩
      cases hq
    · intro h
      cases h
  | some q =>
    constructor
    · rintro ⟨q', hq', hacc⟩
      cases hq'
      exact hacc
    · intro h
      exact ⟨q, rfl, h⟩

theorem sum_map_pos {l : List Nat} {f : Nat → Nat} :
    0 < (l.map f).sum ↔ ∃ b ∈ l, 0 < f b := by
  induction l with
  | nil => simp
  | cons x xs ih =>
    simp only [List.map_cons, List.sum_cons, List.mem_cons]
    constructor
    · intro h
      by_cases hx : 0 < f x
      · exact ⟨x, Or.inl rfl, hx⟩
      · have : 0 < (xs.map f).sum := by omega
        obtain ⟨b, hb, hfb⟩ := ih.mp this
        exact ⟨b, Or.inr hb, hfb⟩
    · rintro ⟨b, (rfl | hb), hfb⟩
      · omega
      · have := ih.mpr ⟨b, hb, hfb⟩
        omega

/-- `count_strings` is positive exactly when some byte string of that
length is accepted. -/
theorem cnt_pos_iff {n : Nat} (A : NDFA n) :
    ∀ (k : Nat) (s : Option (Fin n)),
      0 < cnt A k s ↔ ∃ w : List (Fin 256), w.length = k ∧ acceptW A s (w.map Fin.val) = true := by
  intro k
  induction k with
  | zero =>
    intro s
    cases s with
    | none =>
      simp only [cnt]
      constructor
      · intro h; omega
      · rintro ⟨w, hw, hacc⟩
        rw [List.length_eq_zero.mp hw] at hacc
        simp [acceptW, walkO] at hacc
    | some q =>
      simp only [cnt]
      constructor
      · intro h
        refine ⟨[], rfl, ?_⟩
        simp only [acceptW, walkO, List.map_nil]
        by_cases hacc : A.accepting q
        · exact hacc
        · rw [if_neg hacc] at h; omega
      · rintro ⟨w, hw, hacc⟩
        rw [List.length_eq_zero.mp hw] at hacc
        simp only [acceptW, walkO, List.map_nil] at hacc
        rw [if_pos hacc]
        omega
  | succ k ih =>
    intro s
    cases s with
    | none =>
      simp only [cnt]
      constructor
      · intro h; omega
      · rintro ⟨w, hw, hacc⟩
        have : walkO A none (w.map Fin.val) = none := by
          clear hacc hw
          induction w with
          | nil => rfl
          | cons b bs ihw => simpa [walkO, stepO] using ihw
        simp [acceptW, this] at hacc
    | some q =>
      simp only [cnt]
      rw [sum_map_pos]
      constructor
      · rintro ⟨b, hb, hpos⟩
        obtain ⟨w', hw', hacc'⟩ := (ih (A.trans q b)).mp hpos
        have hb' : b < 256 := List.mem_range.mp hb
        refine ⟨⟨b, hb'⟩ :: w', by simp [hw'], ?_⟩
        simpa [acceptW, walkO, stepO] using hacc'
      · rintro ⟨w, hw, hacc⟩
        cases w with
        | nil => simp at hw
        | cons b bs =>
          refine ⟨b.val, List.mem_range.mpr b.isLt, ?_⟩
          apply (ih (A.trans q b.val)).mpr
          refine ⟨bs, by simpa using hw, ?_⟩
          simpa [acceptW, walkO, stepO] using hacc

/-- Pumping down: an accepted word of length at least `n + 1` (the number
of states including `DEAD`) yields a strictly shorter accepted word, at
most `n + 1` shorter. -/
theorem accept_shorten {n : Nat} (A : NDFA n) (s : Option (Fin n)) (w : List (Fin 256))
    (hacc : acceptW A s (w.map Fin.val) = true) (hlen : n + 1 ≤ w.length) :
    ∃ w' : List (Fin 256), acceptW A s (w'.map Fin.val) = true ∧
      w'.length < w.length ∧ w.length ≤ w'.length + (n + 1) := by
  have hcard : Fintype.card (Option (Fin n)) = n + 1 := by
    rw [Fintype.card_option, Fintype.card_fin]
  have hmem : w ∈ (toDFA A s).accepts := (toDFA_accepts A s w).mpr hacc
  obtain ⟨a, b, c, hsplit, hab, hbne, hsub⟩ :=
    (toDFA A s).pumping_lemma hmem (by rw [hcard]; exact hlen)
  have hy : a ++ c ∈ (toDFA A s).accepts := by
    apply hsub
    have h1 : a ++ c = (a ++ []) ++ c := by simp
    rw [h1]
    exact Language.append_mem_mul
      (Language.append_mem_mul rfl (Language.nil_mem_kstar _)) rfl
  have hblen : 1 ≤ b.length := by
    cases b with
    | nil => exact absurd rfl hbne
    | cons x xs => simp
  have hwlen : w.length = a.length + b.length + c.length := by
    rw [hsplit]
    simp
    omega
  refine ⟨a ++ c, (toDFA_accepts A s _).mp hy, ?_, ?_⟩
  · simp only [List.length_append]
    omega
  · simp only [List.length_append]
    rw [hcard] at hab
    omega

/-- If no byte string with length in the window `[n+1, 2(n+1))` is
accepted, none of length `n + 1` or more is. -/
theorem no_long_accept {n : Nat} (A : NDFA n) (s : Option (Fin n))
    (hwin : ∀ k, n + 1 ≤ k → k < (n + 1) + (n + 1) → cnt A k s = 0) :
    ∀ k, n + 1 ≤ k → cnt A k s = 0 := by
  intro k
  induction k using Nat.strong_induction_on with
  | _ k ih =>
    intro hk
    by_cases hshort : k < (n + 1) + (n + 1)
    · exact hwin k hk hshort
    · by_contra hpos
      have hpos' : 0 < cnt A k s := Nat.pos_of_ne_zero hpos
      obtain ⟨w, hwl, hacc⟩ := (cnt_pos_iff A k s).mp hpos'
      obtain ⟨w', hacc', hlt, hge⟩ := accept_shorten A s w hacc (by rw [hwl]; omega)
      rw [hwl] at hlt hge
      have hpos2 : 0 < cnt A w'.length s := (cnt_pos_iff A w'.length s).mpr ⟨w', rfl, hacc'⟩
      have hz : cnt A w'.length s = 0 := ih w'.length (by omega) (by omega)
      omega

theorem foldr_max_mem : ∀ (l : List Nat), l ≠ [] → l.foldr max 0 ∈ l := by
  intro l
  induction l with
  | nil => intro h; exact absurd rfl h
  | cons x xs ih =>
    intro _
    cases xs with
    | nil => simp
    | cons y ys =>
      have hfold : List.foldr max 0 (x :: y :: ys) = max x (List.foldr max 0 (y :: ys)) := rfl
      rw [hfold]
      rcases Nat.le_total x ((y :: ys).foldr max 0) with h | h
      · rw [Nat.max_eq_right h]
        exact List.mem_cons_of_mem x (ih (by simp))
      · rw [Nat.max_eq_left h]
        exact List.mem_cons_self x _

theorem foldr_max_le : ∀ (l : List Nat) (x : Nat), x ∈ l → x ≤ l.foldr max 0 := by
  intro l
  induction l with
  | nil => intro x h; simp at h
  | cons y ys ih =>
    intro x hx
    rcases List.mem_cons.mp hx with rfl | hx'
    · simp only [List.foldr_cons]
      exact Nat.le_max_left _ _
    · simp only [List.foldr_cons]
      exact Nat.le_trans (ih x hx') (Nat.le_max_right _ _)

/-- A one-state automaton whose start is dead: it accepts nothing, yet its
`max_length` is the finite value 0. -/
def deadDFA : NDFA 1 :=
  { trans := fun _ _ => none, accepting := fun _ => false, start := ⟨0, by omega⟩ }

set_option maxRecDepth 10000 in
/-- C2, counterexample to the claim as stated: the dead automaton has
finite `max_length` (namely 0) but `count_strings(start, max_length) = 0`,
not `> 0` (the claim omits the not-dead condition that the test
`test_has_string_of_max_length` assumes). -/
theorem c2_max_length_counterexample :
    maxLengthO deadDFA (some deadDFA.start) = some 0 ∧
      cnt deadDFA 0 (some deadDFA.start) = 0 := by
  constructor
  · decide
  · decide

/-- C2 (amended): for every automaton whose `max_length` from the start
state is finite AND whose start state is not dead, there is an accepted
string of length `max_length` (`count_strings > 0`) and none of length
`max_length + 1` (`count_strings = 0`). -/
theorem c2_max_length_has_string (N : Nat) (A : NDFA N) (m : Nat)
    (hmax : maxLengthO A (some A.start) = some m)
    (hdead : isDeadO A (some A.start) = false) :
    0 < cnt A m (some A.start) ∧ cnt A (m + 1) (some A.start) = 0 := by
  unfold maxLengthO at hmax
  split at hmax
  · cases hmax
  · rename_i hany
    have hm : m = ((List.range (N + 1)).filter
        (fun k => 0 < cnt A k (some A.start))).foldr max 0 := by
      have := hmax
      simp only [Option.some.injEq] at this
      exact this.symm
    have hwin : ∀ k, N + 1 ≤ k → k < (N + 1) + (N + 1) → cnt A k (some A.start) = 0 := by
      intro k h1 h2
      by_contra hz
      apply hany
      rw [List.any_eq_true]
      refine ⟨k, List.mem_range'_1.mpr ⟨h1, h2⟩, ?_⟩
      simp only [decide_eq_true_eq]
      omega
    have hlong := no_long_accept A (some A.start) hwin
    have hex : ∃ k, k ∈ List.range (N + 1) ∧ 0 < cnt A k (some A.start) := by
      by_contra hnone
      push_neg at hnone
      have : isDeadO A (some A.start) = true := by
        unfold isDeadO
        rw [List.all_eq_true]
        intro k hk
        have := hnone k hk
        simp only [beq_iff_eq]
        omega
      rw [this] at hdead
      cases hdead
    obtain ⟨k0, hk0mem, hk0pos⟩ := hex
    have hk0F : k0 ∈ (List.range (N + 1)).filter (fun k => 0 < cnt A k (some A.start)) :=
      List.mem_filter.mpr ⟨hk0mem, by simpa using hk0pos⟩
    have hFne : (List.range (N + 1)).filter (fun k => 0 < cnt A k (some A.start)) ≠ [] :=
      fun h => by rw [h] at hk0F; cases hk0F
    have hmF : m ∈ (List.range (N + 1)).filter (fun k => 0 < cnt A k (some A.start)) := by
      rw [hm]
      exact foldr_max_mem _ hFne
    have hmpos : 0 < cnt A m (some A.start) := by
      have := (List.mem_filter.mp hmF).2
      simpa using this
    refine ⟨hmpos, ?_⟩
    by_cases hm1 : m + 1 < N + 1
    · by_contra hz
      have hpos1 : 0 < cnt A (m + 1) (some A.start) := Nat.pos_of_ne_zero hz
      have hmemF : m + 1 ∈ (List.range (N + 1)).filter
          (fun k => 0 < cnt A k (some A.start)) :=
        List.mem_filter.mpr ⟨List.mem_range.mpr hm1, by simpa using hpos1⟩
      have := foldr_max_le _ (m + 1) hmemF
      rw [← hm] at this
      omega
    · exact hlong (m + 1) (by omega)

/-- A one-state automaton accepting exactly the empty string. -/
def epsDFA : NDFA 1 :=
  { trans := fun _ _ => none, accepting := fun _ => true, start := ⟨0, by omega⟩ }

set_option maxRecDepth 10000 in
/-- Witness for C2 at the automaton accepting exactly the empty string:
`max_length = 0`, not dead, one string of length 0, none of length 1. -/
theorem c2_max_length_has_string_witness :
    maxLengthO epsDFA (some epsDFA.start) = some 0 ∧
    isDeadO epsDFA (some epsDFA.start) = false ∧
    (0 < cnt epsDFA 0 (some epsDFA.start) ∧ cnt epsDFA (0 + 1) (some epsDFA.start) = 0) :=
  ⟨by decide, by decide, c2_max_length_has_string 1 epsDFA 0 (by decide) (by decide)⟩

/-! ## C4: `canonicalise` and `equivalent` (spec-modelled)

Modelled from the spec §4.1: `canonicalise()` computes the minimal DFA of
the same language via partition refinement over Myhill-Nerode equivalence
(iterated refinement of the accepting/non-accepting split by one-step
indistinguishability), drops states from which no accepting state is
reachable (`DEAD` absorbs them), and renumbers the remaining classes in
the order first discovered by a breadth-first traversal that scans bytes
in ascending order — the shortlex first-discovery order — so that
structurally equal automata get byte-identical encodings.  `equivalent()`
decides language equality by symmetric-difference emptiness on the
product automaton: collect the pairs of states reachable from the joint
start and check that no reachable pair has exactly one side accepting.

The refinement works on `Option (Fin n)`: the `DEAD` sentinel takes part
as an always-rejecting sink, which makes a dead state indistinguishable
from `DEAD`, exactly as language equality demands. -/

/-- Acceptance of a state-or-`DEAD`. -/
def accT {n : Nat} (A : NDFA n) : Option (Fin n) → Bool
  | none => false
  | some q => A.accepting q

/-- Walking a byte word (over the true alphabet `Fin 256`). -/
def walkB {n : Nat} (A : NDFA n) : Option (Fin n) → List (Fin 256) → Option (Fin n)
  | s, [] => s
  | s, b :: bs => walkB A (stepO A s b.val) bs

/-- Language membership from a state-or-`DEAD`. -/
def accB {n : Nat} (A : NDFA n) (s : Option (Fin n)) (w : List (Fin 256)) : Bool :=
  accT A (walkB A s w)

/-- One refinement round: still related now, and related after every
byte. -/
def relStepT {n : Nat} (A : NDFA n) (r : Option (Fin n) → Option (Fin n) → Bool) :
    Option (Fin n) → Option (Fin n) → Bool :=
  fun s t => r s t && (List.range 256).all (fun b => r (stepO A s b) (stepO A t b))

/-- The refinement chain, starting from the accepting/rejecting split. -/
def relNT {n : Nat} (A : NDFA n) : Nat → Option (Fin n) → Option (Fin n) → Bool
  | 0 => fun s t => accT A s == accT A t
  | k + 1 => relStepT A (relNT A k)

/-- The stabilized refinement: `(n+1)^2 + 1` rounds always reach the fixed
point (the related-pair count over `Option (Fin n) × Option (Fin n)` can
only shrink `(n+1)^2` times). -/
def relFixT {n : Nat} (A : NDFA n) : Option (Fin n) → Option (Fin n) → Bool :=
  relNT A ((n + 1) * (n + 1) + 1)

/-- `relNT A k` relates exactly the pairs that agree on all words of
length at most `k`. -/
theorem relNT_iff {n : Nat} (A : NDFA n) :
    ∀ (k : Nat) (s t : Option (Fin n)),
      relNT A k s t = true ↔
        ∀ w : List (Fin 256), w.length ≤ k → accB A s w = accB A t w := by
  intro k
  induction k with
  | zero =>
    intro s t
    simp only [relNT, beq_iff_eq]
    constructor
    · intro h w hw
      rw [List.length_eq_zero.mp (Nat.le_zero.mp hw)]
      exact h
    · intro h
      exact h [] (by simp)
  | succ k ih =>
    intro s t
    simp only [relNT, relStepT, Bool.and_eq_true, List.all_eq_true]
    constructor
    · rintro ⟨h0, hstep⟩ w hw
      cases w with
      | nil => exact (ih s t).mp h0 [] (by simp)
      | cons b bs =>
        have hb := hstep b.val (List.mem_range.mpr b.isLt)
        have hbs : bs.length ≤ k := by
          simp only [List.length_cons] at hw
          omega
        have := (ih (stepO A s b.val) (stepO A t b.val)).mp hb bs hbs
        simpa [accB, walkB] using this
    · intro h
      refine ⟨(ih s t).mpr (fun w hw => h w (by omega)), ?_⟩
      intro b hb
      apply (ih _ _).mpr
      intro w hw
      have := h (⟨b, List.mem_range.mp hb⟩ :: w) (by simpa using Nat.succ_le_succ hw)
      simpa [accB, walkB] using this

theorem relNT_antitone {n : Nat} (A : NDFA n) {j k : Nat} (h : j ≤ k)
    {s t : Option (Fin n)} (hr : relNT A k s t = true) : relNT A j s t = true :=
  (relNT_iff A j s t).mpr (fun w hw => (relNT_iff A k s t).mp hr w (by omega))

theorem relStepT_congr {n : Nat} (A : NDFA n)
    {r r' : Option (Fin n) → Option (Fin n) → Bool}
    (h : ∀ x y, r x y = r' x y) (s t : Option (Fin n)) :
    relStepT A r s t = relStepT A r' s t := by
  unfold relStepT
  rw [funext fun x => funext fun y => h x y]

/-- Once one refinement round changes nothing, no later round does. -/
theorem relNT_stable {n : Nat} (A : NDFA n) {j : Nat}
    (hstab : ∀ s t, relNT A (j + 1) s t = relNT A j s t) :
    ∀ k, j ≤ k → ∀ s t, relNT A k s t = relNT A j s t := by
  intro k
  induction k with
  | zero =>
    intro hk s t
    have : j = 0 := by omega
    rw [this]
  | succ k ih =>
    intro hk s t
    rcases Nat.lt_or_ge j (k + 1) with h | h
    · have hjk : j ≤ k := by omega
      have h1 : relNT A (k + 1) s t = relStepT A (relNT A k) s t := rfl
      rw [h1, relStepT_congr A (fun x y => ih hjk x y), ← hstab s t]
      rfl
    · have : j = k + 1 := by omega
      rw [this]

/-- The number of related pairs after `k` refinement rounds. -/
def relCard {n : Nat} (A : NDFA n) (k : Nat) : Nat :=
  ((Finset.univ : Finset (Option (Fin n) × Option (Fin n))).filter
    (fun st => relNT A k st.1 st.2 = true)).card

theorem relCard_le_succ {n : Nat} (A : NDFA n) (k : Nat) :
    relCard A (k + 1) ≤ relCard A k := by
  apply Finset.card_le_card
  intro st hst
  simp only [Finset.mem_filter] at hst ⊢
  exact ⟨hst.1, relNT_antitone A (Nat.le_succ k) hst.2⟩

theorem relCard_lt_of_not_stable {n : Nat} (A : NDFA n) (k : Nat)
    (h : ¬ ∀ s t, relNT A (k + 1) s t = relNT A k s t) :
    relCard A (k + 1) < relCard A k := by
  push_neg at h
  obtain ⟨s, t, hst⟩ := h
  apply Finset.card_lt_card
  constructor
  · intro st hst'
    simp only [Finset.mem_filter] at hst' ⊢
    exact ⟨hst'.1, relNT_antitone A (Nat.le_succ k) hst'.2⟩
  · intro hsub
    apply hst
    by_cases h1 : relNT A (k + 1) s t = true
    · rw [h1, (relNT_antitone A (Nat.le_succ k) h1)]
    · by_cases h0 : relNT A k s t = true
      · have hmem : (s, t) ∈ (Finset.univ : Finset (Option (Fin n) × Option (Fin n))).filter
            (fun st => relNT A k st.1 st.2 = true) := by
          simp [h0]
        have := hsub hmem
        simp only [Finset.mem_filter] at this
        exact absurd this.2 h1
      · rw [Bool.eq_false_iff.mpr h1, Bool.eq_false_iff.mpr h0]

theorem relCard_le_bound {n : Nat} (A : NDFA n) : relCard A 0 ≤ (n + 1) * (n + 1) := by
  have h1 : relCard A 0 ≤ Fintype.card (Option (Fin n) × Option (Fin n)) := by
    unfold relCard
    rw [← Finset.card_univ]
    exact Finset.card_filter_le _ _
  rwa [Fintype.card_prod, Fintype.card_option, Fintype.card_fin] at h1

theorem relCard_descent {n : Nat} (A : NDFA n) :
    ∀ k, (∀ j, j < k → ¬ ∀ s t, relNT A (j + 1) s t = relNT A j s t) →
      relCard A k + k ≤ relCard A 0 := by
  intro k
  induction k with
  | zero => intro _; omega
  | succ k ih =>
    intro h
    have h1 := ih (fun j hj => h j (by omega))
    have h2 := relCard_lt_of_not_stable A k (h k (by omega))
    omega

/-- Some round at index below `(n+1)^2 + 1` is already stable. -/
theorem exists_stable {n : Nat} (A : NDFA n) :
    ∃ j, j < (n + 1) * (n + 1) + 1 ∧ ∀ s t, relNT A (j + 1) s t = relNT A j s t := by
  by_contra h
  push_neg at h
  have hd := relCard_descent A ((n + 1) * (n + 1) + 1)
    (fun j hj hall => by
      obtain ⟨s, t, hst⟩ := h j hj
      exact hst (hall s t))
  have hb := relCard_le_bound A
  omega

/-- The stabilized relation decides language equality of two states. -/
theorem relFixT_iff {n : Nat} (A : NDFA n) (s t : Option (Fin n)) :
    relFixT A s t = true ↔ ∀ w : List (Fin 256), accB A s w = accB A t w := by
  constructor
  · intro h w
    obtain ⟨j, hj, hstab⟩ := exists_stable A
    have h1 : relNT A ((n + 1) * (n + 1) + 1) s t = relNT A j s t :=
      relNT_stable A hstab _ (by omega) s t
    have h2 : relNT A (max j w.length) s t = relNT A j s t :=
      relNT_stable A hstab _ (Nat.le_max_left _ _) s t
    have h3 : relNT A (max j w.length) s t = true := by
      rw [h2, ← h1]
      exact h
    exact (relNT_iff A _ s t).mp h3 w (Nat.le_max_right _ _)
  · intro h
    exact (relNT_iff A _ s t).mpr (fun w _ => h w)

theorem relFixT_refl {n : Nat} (A : NDFA n) (s : Option (Fin n)) :
    relFixT A s s = true :=
  (relFixT_iff A s s).mpr (fun _ => rfl)

theorem relFixT_symm {n : Nat} (A : NDFA n) {s t : Option (Fin n)}
    (h : relFixT A s t = true) : relFixT A t s = true :=
  (relFixT_iff A t s).mpr (fun w => ((relFixT_iff A s t).mp h w).symm)

theorem relFixT_trans {n : Nat} (A : NDFA n) {s t u : Option (Fin n)}
    (h1 : relFixT A s t = true) (h2 : relFixT A t u = true) : relFixT A s u = true :=
  (relFixT_iff A s u).mpr
    (fun w => ((relFixT_iff A s t).mp h1 w).trans ((relFixT_iff A t u).mp h2 w))

/-- Walking from `DEAD` stays in `DEAD`. -/
theorem walkB_none {n : Nat} (A : NDFA n) : ∀ (w : List (Fin 256)),
    walkB A none w = none := by
  intro w
  induction w with
  | nil => rfl
  | cons b bs ih => simpa [walkB, stepO] using ih

/-- `DEAD` accepts nothing. -/
theorem accB_none {n : Nat} (A : NDFA n) (w : List (Fin 256)) :
    accB A none w = false := by
  unfold accB
  rw [walkB_none]
  rfl

/-- First element of a list satisfying a predicate. -/
def firstSat {β : Type} (p : β → Bool) : List β → Option β
  | [] => none
  | x :: xs => if p x then some x else firstSat p xs

theorem firstSat_congr {β : Type} {p q : β → Bool} (h : ∀ x, p x = q x) :
    ∀ (l : List β), firstSat p l = firstSat q l := by
  intro l
  induction l with
  | nil => rfl
  | cons x xs ih => simp only [firstSat, h x, ih]

theorem firstSat_sat {β : Type} (p : β → Bool) :
    ∀ (l : List β) (x : β), firstSat p l = some x → p x = true := by
  intro l
  induction l with
  | nil => intro x h; cases h
  | cons y ys ih =>
    intro x h
    simp only [firstSat] at h
    by_cases hy : p y
    · rw [if_pos hy] at h
      cases h
      exact hy
    · rw [if_neg hy] at h
      exact ih x h

theorem firstSat_isSome {β : Type} (p : β → Bool) :
    ∀ (l : List β) (x : β), x ∈ l → p x = true → ∃ y, firstSat p l = some y := by
  intro l
  induction l with
  | nil => intro x h; simp at h
  | cons z zs ih =>
    intro x hx hp
    simp only [firstSat]
    by_cases hz : p z
    · exact ⟨z, by rw [if_pos hz]⟩
    · rw [if_neg hz]
      rcases List.mem_cons.mp hx with rfl | hx'
      · exact absurd hp hz
      · exact ih x hx' hp

/-- The enumeration of states-or-`DEAD` used to pick class
representatives; `DEAD` first, then the states in index order. -/
def enumT (n : Nat) : List (Option (Fin n)) :=
  none :: (List.finRange n).map some

theorem mem_enumT {n : Nat} (s : Option (Fin n)) : s ∈ enumT n := by
  cases s with
  | none => exact List.mem_cons_self _ _
  | some q =>
    apply List.mem_cons_of_mem
    exact List.mem_map_of_mem some (List.mem_finRange q)

/-- The class representative: the first state-or-`DEAD` in enumeration
order that is indistinguishable from `s`. -/
def repOf {n : Nat} (A : NDFA n) (s : Option (Fin n)) : Option (Fin n) :=
  (firstSat (fun t => relFixT A s t) (enumT n)).getD s

theorem relFixT_repOf {n : Nat} (A : NDFA n) (s : Option (Fin n)) :
    relFixT A s (repOf A s) = true := by
  unfold repOf
  obtain ⟨y, hy⟩ := firstSat_isSome (fun t => relFixT A s t) (enumT n) s
    (mem_enumT s) (relFixT_refl A s)
  rw [hy]
  exact firstSat_sat _ _ y hy

theorem repOf_eq_of_rel {n : Nat} (A : NDFA n) {s t : Option (Fin n)}
    (h : relFixT A s t = true) : repOf A s = repOf A t := by
  unfold repOf
  have hpt : ∀ x, relFixT A s x = relFixT A t x := by
    intro x
    by_cases hx : relFixT A t x = true
    · rw [hx, relFixT_trans A h hx]
    · rw [Bool.eq_false_iff.mpr hx]
      rw [Bool.eq_false_iff]
      intro hsx
      exact hx (relFixT_trans A (relFixT_symm A h) hsx)
  rw [firstSat_congr hpt]
  obtain ⟨y, hy⟩ := firstSat_isSome (fun x => relFixT A t x) (enumT n) t
    (mem_enumT t) (relFixT_refl A t)
  rw [hy]
  rfl

theorem repOf_idem {n : Nat} (A : NDFA n) (s : Option (Fin n)) :
    repOf A (repOf A s) = repOf A s :=
  (repOf_eq_of_rel A (relFixT_repOf A s)).symm

theorem repOf_none {n : Nat} (A : NDFA n) : repOf A (none : Option (Fin n)) = none := by
  unfold repOf enumT
  simp [firstSat, relFixT_refl]

/-- Visit the children of one dequeued node: append the unseen ones to
the visited list (in byte order) and collect them for the queue. -/
def addChildren {β : Type} [DecidableEq β] : List β → List β → List β → (List β × List β)
  | visited, acc, [] => (visited, acc)
  | visited, acc, c :: cs =>
    if c ∈ visited then addChildren visited acc cs
    else addChildren (visited ++ [c]) (acc ++ [c]) cs

theorem addChildren_append {β : Type} [DecidableEq β] :
    ∀ (cs v a : List β), ∃ w, addChildren v a cs = (v ++ w, a ++ w) := by
  intro cs
  induction cs with
  | nil => intro v a; exact ⟨[], by simp [addChildren]⟩
  | cons c cs ih =>
    intro v a
    by_cases hc : c ∈ v
    · obtain ⟨w, hw⟩ := ih v a
      exact ⟨w, by simp [addChildren, hc, hw]⟩
    · obtain ⟨w, hw⟩ := ih (v ++ [c]) (a ++ [c])
      refine ⟨c :: w, ?_⟩
      simp only [addChildren, if_neg hc, hw]
      simp

theorem addChildren_subset_fst {β : Type} [DecidableEq β] :
    ∀ (cs v a : List β), ∀ c ∈ cs, c ∈ (addChildren v a cs).1 := by
  intro cs
  induction cs with
  | nil => intro v a c hc; simp at hc
  | cons x xs ih =>
    intro v a c hc
    simp only [addChildren]
    rcases List.mem_cons.mp hc with rfl | hc'
    · by_cases hx : c ∈ v
      · rw [if_pos hx]
        obtain ⟨w, hw⟩ := addChildren_append xs v a
        rw [hw]
        exact List.mem_append_left w hx
      · rw [if_neg hx]
        obtain ⟨w, hw⟩ := addChildren_append xs (v ++ [c]) (a ++ [c])
        rw [hw]
        apply List.mem_append_left
        simp
    · by_cases hx : x ∈ v
      · rw [if_pos hx]; exact ih v a c hc'
      · rw [if_neg hx]; exact ih (v ++ [x]) (a ++ [x]) c hc'

theorem addChildren_snd_subset {β : Type} [DecidableEq β] :
    ∀ (cs v a : List β), ∀ x ∈ (addChildren v a cs).2, x ∈ a ∨ x ∈ cs := by
  intro cs
  induction cs with
  | nil => intro v a x hx; exact Or.inl hx
  | cons c cs ih =>
    intro v a x hx
    simp only [addChildren] at hx
    by_cases hc : c ∈ v
    · rw [if_pos hc] at hx
      rcases ih v a x hx with h | h
      · exact Or.inl h
      · exact Or.inr (List.mem_cons_of_mem c h)
    · rw [if_neg hc] at hx
      rcases ih (v ++ [c]) (a ++ [c]) x hx with h | h
      · rcases List.mem_append.mp h with h' | h'
        · exact Or.inl h'
        · simp only [List.mem_singleton] at h'
          exact Or.inr (h' ▸ List.mem_cons_self c cs)
      · exact Or.inr (List.mem_cons_of_mem c h)

theorem addChildren_nodup {β : Type} [DecidableEq β] :
    ∀ (cs v a : List β), v.Nodup → (addChildren v a cs).1.Nodup := by
  intro cs
  induction cs with
  | nil => intro v a hv; exact hv
  | cons c cs ih =>
    intro v a hv
    simp only [addChildren]
    by_cases hc : c ∈ v
    · rw [if_pos hc]; exact ih v a hv
    · rw [if_neg hc]
      apply ih
      simp [List.nodup_append, hv, hc]

/-- Breadth-first traversal: process the queue in order, discovering
children in byte order; the visited list is the discovery order. -/
def bfsAux {β : Type} [DecidableEq β] (step : β → List β) : Nat → List β → List β → List β
  | 0, visited, _ => visited
  | _ + 1, visited, [] => visited
  | fuel + 1, visited, x :: qs =>
    bfsAux step fuel (addChildren visited [] (step x)).1
      (qs ++ (addChildren visited [] (step x)).2)

theorem bfsAux_append {β : Type} [DecidableEq β] (step : β → List β) :
    ∀ (fuel : Nat) (q v : List β), ∃ w, bfsAux step fuel v q = v ++ w := by
  intro fuel
  induction fuel with
  | zero => intro q v; exact ⟨[], by simp [bfsAux]⟩
  | succ fuel ih =>
    intro q v
    cases q with
    | nil => exact ⟨[], by simp [bfsAux]⟩
    | cons x qs =>
      obtain ⟨w1, hw1⟩ := addChildren_append (step x) v ([] : List β)
      obtain ⟨w2, hw2⟩ := ih (qs ++ (addChildren v [] (step x)).2) (addChildren v [] (step x)).1
      refine ⟨w1 ++ w2, ?_⟩
      show bfsAux step fuel (addChildren v [] (step x)).1 _ = _
      rw [hw2, hw1]
      simp

/-- The main invariants of the traversal: with enough fuel the result is
duplicate-free, every visited node satisfies any step-preserved property
of the roots, and the visited set is closed under `step`. -/
theorem bfsAux_spec {β : Type} [DecidableEq β] [Fintype β] (step : β → List β)
    (P : β → Prop) (hstep : ∀ x, P x → ∀ c ∈ step x, P c) :
    ∀ (fuel : Nat) (q v : List β),
      v.Nodup → (∀ x ∈ q, x ∈ v) → (∀ x ∈ v, P x) →
      (∀ x ∈ v, x ∉ q → ∀ c ∈ step x, c ∈ v) →
      q.length + (Fintype.card β - v.length) ≤ fuel →
      (bfsAux step fuel v q).Nodup ∧
      (∀ x ∈ bfsAux step fuel v q, P x) ∧
      (∀ x ∈ bfsAux step fuel v q, ∀ c ∈ step x, c ∈ bfsAux step fuel v q) := by
  intro fuel
  induction fuel with
  | zero =>
    intro q v hv hq hP hclosed hfuel
    have hq0 : q = [] := List.length_eq_zero.mp (by omega)
    subst hq0
    exact ⟨hv, hP, fun x hx c hc => hclosed x hx (by simp) c hc⟩
  | succ fuel ih =>
    intro q v hv hq hP hclosed hfuel
    cases q with
    | nil =>
      exact ⟨hv, hP, fun x hx c hc => hclosed x hx (by simp) c hc⟩
    | cons x qs =>
      have hx : x ∈ v := hq x (List.mem_cons_self x qs)
      obtain ⟨w, hw⟩ := addChildren_append (step x) v ([] : List β)
      have hfst : (addChildren v [] (step x)).1 = v ++ w := by rw [hw]
      have hsnd : (addChildren v [] (step x)).2 = w := by rw [hw]; simp
      have hwsub : ∀ c ∈ w, c ∈ step x := by
        intro c hc
        have := addChildren_snd_subset (step x) v [] c (by rw [hsnd]; exact hc)
        rcases this with h | h
        · simp at h
        · exact h
      have hnodup1 : (v ++ w).Nodup := by
        rw [← hfst]
        exact addChildren_nodup (step x) v [] hv
      have hcard : (v ++ w).length ≤ Fintype.card β := hnodup1.length_le_card
      have hstepx : ∀ c ∈ step x, c ∈ v ++ w := by
        intro c hc
        rw [← hfst]
        exact addChildren_subset_fst (step x) v [] c hc
      have hrec := ih (qs ++ w) (v ++ w) hnodup1
        (by
          intro y hy
          rcases List.mem_append.mp hy with h | h
          · exact List.mem_append_left w (hq y (List.mem_cons_of_mem x h))
          · exact List.mem_append_right v h)
        (by
          intro y hy
          rcases List.mem_append.mp hy with h | h
          · exact hP y h
          · exact hstep x (hP x hx) y (hwsub y h))
        (by
          intro y hy hynot c hc
          rcases List.mem_append.mp hy with h | h
          · by_cases hyx : y = x
            · subst hyx
              exact hstepx c hc
            · have hnq : y ∉ x :: qs := by
                intro hmem
                rcases List.mem_cons.mp hmem with h' | h'
                · exact hyx h'
                · exact hynot (List.mem_append_left w h')
              exact List.mem_append_left w (hclosed y h hnq c hc)
          · exact absurd (List.mem_append_right qs h) hynot)
        (by
          simp only [List.length_append, List.length_cons] at hfuel ⊢
          simp only [List.length_append] at hcard
          omega)
      have heq : bfsAux step (fuel + 1) v (x :: qs) = bfsAux step fuel (v ++ w) (qs ++ w) := by
        show bfsAux step fuel (addChildren v [] (step x)).1
            (qs ++ (addChildren v [] (step x)).2) = _
        rw [hfst, hsnd]
      rw [heq]
      exact hrec

/-- With sufficient fuel the traversal result no longer depends on the
exact fuel. -/
theorem bfsAux_fuel_succ {β : Type} [DecidableEq β] [Fintype β] (step : β → List β) :
    ∀ (fuel : Nat) (q v : List β), v.Nodup →
      q.length + (Fintype.card β - v.length) ≤ fuel →
      bfsAux step (fuel + 1) v q = bfsAux step fuel v q := by
  intro fuel
  induction fuel with
  | zero =>
    intro q v hv hfuel
    have hq0 : q = [] := List.length_eq_zero.mp (by omega)
    subst hq0
    rfl
  | succ fuel ih =>
    intro q v hv hfuel
    cases q with
    | nil => rfl
    | cons x qs =>
      obtain ⟨w, hw⟩ := addChildren_append (step x) v ([] : List β)
      have hfst : (addChildren v [] (step x)).1 = v ++ w := by rw [hw]
      have hsnd : (addChildren v [] (step x)).2 = w := by rw [hw]; simp
      have hnodup1 : (v ++ w).Nodup := by
        rw [← hfst]
        exact addChildren_nodup (step x) v [] hv
      have hcard : (v ++ w).length ≤ Fintype.card β := hnodup1.length_le_card
      show bfsAux step (fuel + 1) (addChildren v [] (step x)).1
          (qs ++ (addChildren v [] (step x)).2) = bfsAux step fuel _ _
      rw [hfst, hsnd]
      apply ih
      · exact hnodup1
      · simp only [List.length_append, List.length_cons] at hfuel ⊢
        simp only [List.length_append] at hcard
        omega

theorem bfsAux_fuel_eq {β : Type} [DecidableEq β] [Fintype β] (step : β → List β)
    (q v : List β) (hv : v.Nodup) (f1 f2 : Nat)
    (h1 : q.length + (Fintype.card β - v.length) ≤ f1)
    (h2 : q.length + (Fintype.card β - v.length) ≤ f2) :
    bfsAux step f1 v q = bfsAux step f2 v q := by
  have key : ∀ d, bfsAux step (q.length + (Fintype.card β - v.length) + d) v q =
      bfsAux step (q.length + (Fintype.card β - v.length)) v q := by
    intro d
    induction d with
    | zero => rfl
    | succ d ihd =>
      have := bfsAux_fuel_succ step (q.length + (Fintype.card β - v.length) + d) q v hv
        (by omega)
      rw [show q.length + (Fintype.card β - v.length) + (d + 1) =
        q.length + (Fintype.card β - v.length) + d + 1 by omega, this, ihd]
  have e1 := key (f1 - (q.length + (Fintype.card β - v.length)))
  have e2 := key (f2 - (q.length + (Fintype.card β - v.length)))
  rw [show q.length + (Fintype.card β - v.length) +
    (f1 - (q.length + (Fintype.card β - v.length))) = f1 by omega] at e1
  rw [show q.length + (Fintype.card β - v.length) +
    (f2 - (q.length + (Fintype.card β - v.length))) = f2 by omega] at e2
  rw [e1, e2]

theorem addChildren_map {β γ : Type} [DecidableEq β] [DecidableEq γ]
    {φ : β → γ} (hinj : Function.Injective φ) :
    ∀ (cs v a : List β),
      addChildren (v.map φ) (a.map φ) (cs.map φ) =
        ((addChildren v a cs).1.map φ, (addChildren v a cs).2.map φ) := by
  intro cs
  induction cs with
  | nil => intro v a; rfl
  | cons c cs ih =>
    intro v a
    simp only [List.map_cons, addChildren]
    by_cases hc : c ∈ v
    · rw [if_pos (List.mem_map_of_mem φ hc), if_pos hc]
      exact ih v a
    · have hc' : φ c ∉ v.map φ := by
        intro hmem
        obtain ⟨x, hx, hfx⟩ := List.mem_map.mp hmem
        exact hc (hinj hfx ▸ hx)
      rw [if_neg hc', if_neg hc]
      have := ih (v ++ [c]) (a ++ [c])
      simpa using this

theorem bfsAux_map {β γ : Type} [DecidableEq β] [DecidableEq γ]
    {φ : β → γ} (hinj : Function.Injective φ)
    (step1 : β → List β) (step2 : γ → List γ)
    (hcomm : ∀ x, step2 (φ x) = (step1 x).map φ) :
    ∀ (fuel : Nat) (q v : List β),
      bfsAux step2 fuel (v.map φ) (q.map φ) = (bfsAux step1 fuel v q).map φ := by
  intro fuel
  induction fuel with
  | zero => intro q v; rfl
  | succ fuel ih =>
    intro q v
    cases q with
    | nil => rfl
    | cons x qs =>
      show bfsAux step2 fuel (addChildren (v.map φ) [] (step2 (φ x))).1
          (qs.map φ ++ (addChildren (v.map φ) [] (step2 (φ x))).2) = _
      rw [hcomm x]
      have hmap := addChildren_map hinj (step1 x) v ([] : List β)
      simp only [List.map_nil] at hmap
      rw [hmap]
      have := ih (qs ++ (addChildren v [] (step1 x)).2) (addChildren v [] (step1 x)).1
      simp only [List.map_append] at this
      exact this

/-- `repOf` gives back `DEAD` exactly on the language-empty states (it
can, because `DEAD` heads the enumeration). -/
theorem repOf_eq_none_iff {n : Nat} (A : NDFA n) (s : Option (Fin n)) :
    repOf A s = none ↔ relFixT A s none = true := by
  constructor
  · intro h
    unfold repOf at h
    cases hfs : firstSat (fun t => relFixT A s t) (enumT n) with
    | none =>
      rw [hfs] at h
      simp only [Option.getD_none] at h
      subst h
      exact relFixT_refl A none
    | some y =>
      rw [hfs] at h
      simp only [Option.getD_some] at h
      subst h
      exact firstSat_sat _ _ _ hfs
  · intro h
    unfold repOf enumT
    simp only [firstSat]
    rw [if_pos h]
    rfl

/-- If the predicate holds at exactly one member of the list, `firstSat`
returns it. -/
theorem firstSat_unique {β : Type} (p : β → Bool) :
    ∀ (l : List β) (x : β), x ∈ l → p x = true →
      (∀ y ∈ l, p y = true → y = x) → firstSat p l = some x := by
  intro l
  induction l with
  | nil => intro x hx; simp at hx
  | cons z zs ih =>
    intro x hx hp huniq
    simp only [firstSat]
    by_cases hz : p z
    · rw [if_pos hz, huniq z (List.mem_cons_self z zs) hz]
    · rw [if_neg hz]
      rcases List.mem_cons.mp hx with rfl | hx'
      · exact absurd hp hz
      · exact ih x hx' hp (fun y hy => huniq y (List.mem_cons_of_mem z hy))

/-- Position of the first occurrence of an element in a list. -/
def idxIn {β : Type} [DecidableEq β] : (l : List β) → β → Option (Fin l.length)
  | [], _ => none
  | x :: xs, t =>
    if x = t then some ⟨0, Nat.succ_pos xs.length⟩
    else (idxIn xs t).map (fun k => ⟨k.val + 1, Nat.succ_lt_succ k.isLt⟩)

theorem idxIn_get {β : Type} [DecidableEq β] :
    ∀ (l : List β) (t : β) (k : Fin l.length), idxIn l t = some k → l.get k = t := by
  intro l
  induction l with
  | nil => intro t k h; cases h
  | cons x xs ih =>
    intro t k h
    simp only [idxIn] at h
    by_cases hx : x = t
    · rw [if_pos hx] at h
      cases h
      exact hx
    · rw [if_neg hx] at h
      cases hk : idxIn xs t with
      | none => rw [hk] at h; cases h
      | some k' =>
        rw [hk] at h
        simp only [Option.map_some'] at h
        obtain rfl := (Option.some_inj.mp h).symm
        exact ih t k' hk

theorem idxIn_some_of_mem {β : Type} [DecidableEq β] :
    ∀ (l : List β) (t : β), t ∈ l → ∃ k, idxIn l t = some k := by
  intro l
  induction l with
  | nil => intro t h; simp at h
  | cons x xs ih =>
    intro t ht
    simp only [idxIn]
    by_cases hx : x = t
    · exact ⟨_, by rw [if_pos hx]⟩
    · rw [if_neg hx]
      rcases List.mem_cons.mp ht with rfl | ht'
      · exact absurd rfl hx
      · obtain ⟨k, hk⟩ := ih t ht'
        exact ⟨_, by rw [hk]; rfl⟩

theorem idxIn_eq_none {β : Type} [DecidableEq β] (l : List β) (t : β)
    (h : t ∉ l) : idxIn l t = none := by
  cases hk : idxIn l t with
  | none => rfl
  | some k =>
    have hm : l.get k ∈ l := List.get_mem l k.val k.isLt
    exact absurd (idxIn_get l t k hk ▸ hm) h

theorem idxIn_val_congr {β : Type} [DecidableEq β] {l l' : List β} (h : l = l')
    (t : β) : (idxIn l t).map Fin.val = (idxIn l' t).map Fin.val := by
  subst h
  rfl

/-- Appending one byte to a walk. -/
theorem walkB_snoc {n : Nat} (A : NDFA n) :
    ∀ (w : List (Fin 256)) (s : Option (Fin n)) (b : Fin 256),
      walkB A s (w ++ [b]) = stepO A (walkB A s w) b.val := by
  intro w
  induction w with
  | nil => intro s b; rfl
  | cons c cs ih =>
    intro s b
    simpa [walkB] using ih (stepO A s c.val) b

/-- Modelled from the spec (§4.1, `canonicalise`): the classes reachable
from a class in one byte step — bytes scanned in ascending order, each
target collapsed to its class representative, the dead class dropped. -/
def stepListQ {n : Nat} (A : NDFA n) (x : Option (Fin n)) : List (Option (Fin n)) :=
  (List.range 256).filterMap (fun b =>
    match repOf A (stepO A x b) with
    | none => none
    | some j => some (some j))

theorem stepListQ_none {n : Nat} (A : NDFA n) :
    stepListQ A (none : Option (Fin n)) = [] := by
  unfold stepListQ
  rw [List.filterMap_eq_nil_iff]
  intro b _
  show (match repOf A (stepO A none b) with
    | none => none
    | some j => some (some j)) = none
  rw [show stepO A (none : Option (Fin n)) b = none from rfl, repOf_none]

theorem stepListQ_elim {n : Nat} (A : NDFA n) (x : Option (Fin n)) :
    ∀ y ∈ stepListQ A x, ∃ b, b < 256 ∧ y = repOf A (stepO A x b) ∧ y ≠ none := by
  intro y hy
  unfold stepListQ at hy
  obtain ⟨b, hb, hfb⟩ := List.mem_filterMap.mp hy
  refine ⟨b, List.mem_range.mp hb, ?_⟩
  cases hrep : repOf A (stepO A x b) with
  | none => rw [hrep] at hfb; cases hfb
  | some j =>
    rw [hrep] at hfb
    simp only at hfb
    obtain rfl := (Option.some_inj.mp hfb).symm
    exact ⟨rfl, by simp⟩

theorem stepListQ_intro {n : Nat} (A : NDFA n) (x : Option (Fin n)) (b : Nat)
    (hb : b < 256) (hne : repOf A (stepO A x b) ≠ none) :
    repOf A (stepO A x b) ∈ stepListQ A x := by
  unfold stepListQ
  apply List.mem_filterMap.mpr
  refine ⟨b, List.mem_range.mpr hb, ?_⟩
  cases hrep : repOf A (stepO A x b) with
  | none => exact absurd hrep hne
  | some j => rfl

/-- Modelled from the spec (§4.1, `canonicalise`): the canonical discovery
order of the minimized automaton's live classes — a breadth-first
traversal from the start state's class scanning bytes in ascending order,
i.e. the order in which the classes are first reached by shortlex
enumeration. -/
def ordOf {n : Nat} (A : NDFA n) : List (Option (Fin n)) :=
  bfsAux (stepListQ A) (n + 2) [repOf A (some A.start)] [repOf A (some A.start)]

theorem ordOf_cons {n : Nat} (A : NDFA n) :
    ∃ w, ordOf A = repOf A (some A.start) :: w := by
  obtain ⟨w, hw⟩ := bfsAux_append (stepListQ A) (n + 2)
    [repOf A (some A.start)] [repOf A (some A.start)]
  exact ⟨w, by rw [ordOf, hw]; rfl⟩

theorem ordOf_pos {n : Nat} (A : NDFA n) : 0 < (ordOf A).length := by
  obtain ⟨w, hw⟩ := ordOf_cons A
  rw [hw]
  simp

/-- A language-empty start collapses the traversal to the single dead
class. -/
theorem ordOf_dead {n : Nat} (A : NDFA n) (h : repOf A (some A.start) = none) :
    ordOf A = [none] := by
  unfold ordOf
  rw [h]
  show bfsAux (stepListQ A) (n + 1)
      (addChildren [none] [] (stepListQ A none)).1
      ([] ++ (addChildren [none] [] (stepListQ A none)).2) = [none]
  rw [stepListQ_none]
  rfl

/-- Modelled from the spec (§4.1): `canonicalise()` — the minimal
equivalent automaton: its states are the live Myhill-Nerode classes of the
input in breadth-first/shortlex discovery order, the transition function
collapses each target to its class (`DEAD` when the target class is
language-empty), a class accepts iff its members do, and the start is the
first-discovered class (index `0`). -/
def canonDFA {n : Nat} (A : NDFA n) : NDFA (ordOf A).length where
  trans := fun i b => idxIn (ordOf A) (repOf A (stepO A ((ordOf A).get i) b))
  accepting := fun i => accT A ((ordOf A).get i)
  start := ⟨0, ordOf_pos A⟩

/-- Modelled from the spec (§5, §4.1): the canonical encoding of an
automaton — state count, start state, then per state (in index order) its
acceptance flag and its 256 transition targets (in byte order), `DEAD`
encoded as `none`. -/
def encodeData {n : Nat} (A : NDFA n) : Nat × Nat × List (Bool × List (Option Nat)) :=
  (n, A.start.val,
    (List.finRange n).map (fun i =>
      (A.accepting i, (List.range 256).map (fun b => (A.trans i b).map Fin.val))))

/-- The canonical textual form of an automaton (the input to content
hashing): the printed canonical encoding. -/
def encodeStr {n : Nat} (A : NDFA n) : String :=
  toString (encodeData A)

/-- Modelled from the spec (§4.1, `equivalent`): one product-automaton
step — the pairs reachable from a pair of states by one byte. -/
def prodStep {n m : Nat} (A : NDFA n) (B : NDFA m)
    (p : Option (Fin n) × Option (Fin m)) : List (Option (Fin n) × Option (Fin m)) :=
  (List.range 256).map (fun b => (stepO A p.1 b, stepO B p.2 b))

/-- Modelled from the spec (§4.1): `equivalent(other)` — symmetric-difference
emptiness on the product automaton: collect every pair of states reachable
from the joint start (a bounded search, the product being finite) and
require that no reachable pair has exactly one side accepting. -/
def equivDFA {n m : Nat} (A : NDFA n) (B : NDFA m) : Bool :=
  (bfsAux (prodStep A B) ((n + 1) * (m + 1) + 1)
      [(some A.start, some B.start)] [(some A.start, some B.start)]).all
    (fun p => accT A p.1 == accT B p.2)

/-- In a live traversal the discovery order is duplicate-free, lists only
representative live classes, and is closed under one-byte steps. -/
theorem ordOf_invariants {n : Nat} (A : NDFA n)
    (hlive : repOf A (some A.start) ≠ none) :
    (ordOf A).Nodup ∧
    (∀ x ∈ ordOf A, repOf A x = x ∧ x ≠ none) ∧
    (∀ x ∈ ordOf A, ∀ c ∈ stepListQ A x, c ∈ ordOf A) := by
  have hstep : ∀ x, (repOf A x = x ∧ x ≠ none) →
      ∀ c ∈ stepListQ A x, repOf A c = c ∧ c ≠ none := by
    intro x _ c hc
    obtain ⟨b, _, hbc, hcn⟩ := stepListQ_elim A x c hc
    exact ⟨by rw [hbc]; exact repOf_idem A _, hcn⟩
  have hcard : Fintype.card (Option (Fin n)) = n + 1 := by
    simp [Fintype.card_option, Fintype.card_fin]
  exact bfsAux_spec (stepListQ A) (fun x => repOf A x = x ∧ x ≠ none) hstep
    (n + 2) [repOf A (some A.start)] [repOf A (some A.start)]
    (by simp)
    (by intro x hx; exact hx)
    (by
      intro x hx
      simp only [List.mem_singleton] at hx
      subst hx
      exact ⟨repOf_idem A _, hlive⟩)
    (by
      intro x hx hnq
      exact absurd hx hnq)
    (by
      rw [hcard]
      simp only [List.length_singleton]
      omega)

/-- Each canonical state accepts exactly the language of the class it
names. -/
theorem canon_acc {n : Nat} (A : NDFA n) (hlive : repOf A (some A.start) ≠ none) :
    ∀ (w : List (Fin 256)) (i : Fin (ordOf A).length),
      accB (canonDFA A) (some i) w = accB A ((ordOf A).get i) w := by
  obtain ⟨hnodup, hmem, hclosed⟩ := ordOf_invariants A hlive
  intro w
  induction w with
  | nil => intro i; rfl
  | cons b bs ih =>
    intro i
    show accB (canonDFA A) (stepO (canonDFA A) (some i) b.val) bs
        = accB A (stepO A ((ordOf A).get i) b.val) bs
    have hstep : stepO (canonDFA A) (some i) b.val =
        idxIn (ordOf A) (repOf A (stepO A ((ordOf A).get i) b.val)) := rfl
    rw [hstep]
    cases hidx : idxIn (ordOf A) (repOf A (stepO A ((ordOf A).get i) b.val)) with
    | some k =>
      rw [ih k]
      rw [idxIn_get _ _ _ hidx]
      exact (relFixT_iff A _ _).mp (relFixT_symm A (relFixT_repOf A _)) bs
    | none =>
      rw [accB_none]
      have hgeti : (ordOf A).get i ∈ ordOf A := List.get_mem (ordOf A) i.val i.isLt
      have htn : repOf A (stepO A ((ordOf A).get i) b.val) = none := by
        by_contra htn
        have h1 : repOf A (stepO A ((ordOf A).get i) b.val) ∈
            stepListQ A ((ordOf A).get i) :=
          stepListQ_intro A _ b.val b.isLt htn
        have h2 := hclosed _ hgeti _ h1
        obtain ⟨k, hk⟩ := idxIn_some_of_mem _ _ h2
        rw [hk] at hidx
        cases hidx
      have hrel : relFixT A (stepO A ((ordOf A).get i) b.val) none = true :=
        (repOf_eq_none_iff A _).mp htn
      rw [(relFixT_iff A _ _).mp hrel bs, accB_none]

/-- The canonical automaton of a language-empty automaton accepts
nothing. -/
theorem canon_dead_accT {n : Nat} (A : NDFA n) (hdead : ordOf A = [none]) :
    ∀ x, accT (canonDFA A) x = false := by
  intro x
  cases x with
  | none => rfl
  | some i =>
    show accT A ((ordOf A).get i) = false
    have key : ∀ y, y ∈ ordOf A → accT A y = false := by
      intro y hy
      rw [hdead] at hy
      simp only [List.mem_singleton] at hy
      rw [hy]
      rfl
    exact key _ (List.get_mem (ordOf A) i.val i.isLt)

/-- `canonicalise` preserves the language. -/
theorem canon_lang {n : Nat} (A : NDFA n) (w : List (Fin 256)) :
    accB (canonDFA A) (some (canonDFA A).start) w = accB A (some A.start) w := by
  by_cases hlive : repOf A (some A.start) = none
  · have hdead := ordOf_dead A hlive
    have hL : accB (canonDFA A) (some (canonDFA A).start) w = false := by
      unfold accB
      exact canon_dead_accT A hdead _
    have hrel : relFixT A (some A.start) none = true := (repOf_eq_none_iff A _).mp hlive
    rw [hL, (relFixT_iff A _ _).mp hrel w, accB_none]
  · have h0 : (ordOf A).get ⟨0, ordOf_pos A⟩ = repOf A (some A.start) := by
      obtain ⟨w', hw'⟩ := ordOf_cons A
      rw [List.get_of_eq hw']
      rfl
    have hca := canon_acc A hlive w ⟨0, ordOf_pos A⟩
    rw [h0] at hca
    calc accB (canonDFA A) (some (canonDFA A).start) w
        = accB A (repOf A (some A.start)) w := hca
      _ = accB A (some A.start) w :=
          (relFixT_iff A _ _).mp (relFixT_symm A (relFixT_repOf A _)) w

/-- Every automaton tests equivalent to its canonical form. -/
theorem equiv_canon {n : Nat} (A : NDFA n) : equivDFA A (canonDFA A) = true := by
  unfold equivDFA
  rw [List.all_eq_true]
  intro p hp
  have hstep : ∀ (p : Option (Fin n) × Option (Fin (ordOf A).length)),
      (∃ w, p = (walkB A (some A.start) w,
        walkB (canonDFA A) (some (canonDFA A).start) w)) →
      ∀ c ∈ prodStep A (canonDFA A) p,
        ∃ w, c = (walkB A (some A.start) w,
          walkB (canonDFA A) (some (canonDFA A).start) w) := by
    rintro p ⟨w, rfl⟩ c hc
    unfold prodStep at hc
    obtain ⟨b, hb, hcb⟩ := List.mem_map.mp hc
    refine ⟨w ++ [⟨b, List.mem_range.mp hb⟩], ?_⟩
    rw [walkB_snoc, walkB_snoc]
    exact hcb.symm
  have hcardp : Fintype.card (Option (Fin n) × Option (Fin (ordOf A).length)) =
      (n + 1) * ((ordOf A).length + 1) := by
    simp [Fintype.card_prod, Fintype.card_option, Fintype.card_fin]
  have hspec := bfsAux_spec (prodStep A (canonDFA A))
      (fun p => ∃ w, p = (walkB A (some A.start) w,
        walkB (canonDFA A) (some (canonDFA A).start) w)) hstep
      ((n + 1) * ((ordOf A).length + 1) + 1)
      [(some A.start, some (canonDFA A).start)]
      [(some A.start, some (canonDFA A).start)]
      (by simp)
      (fun x hx => hx)
      (by
        intro x hx
        simp only [List.mem_singleton] at hx
        subst hx
        exact ⟨[], rfl⟩)
      (by intro x hx hnq; exact absurd hx hnq)
      (by rw [hcardp]; simp only [List.length_singleton]; omega)
  obtain ⟨w, rfl⟩ := hspec.2.1 p hp
  simp only [beq_iff_eq]
  exact (canon_lang A w).symm

/-- Reading a canonical state back as the class of the original automaton
it names (`DEAD` to `DEAD`). -/
def ordEmb {n : Nat} (A : NDFA n) : Option (Fin (ordOf A).length) → Option (Fin n)
  | none => none
  | some i => (ordOf A).get i

theorem ordEmb_inj {n : Nat} (A : NDFA n) (hlive : repOf A (some A.start) ≠ none) :
    Function.Injective (ordEmb A) := by
  obtain ⟨hnodup, hmem, _⟩ := ordOf_invariants A hlive
  intro x y h
  cases x with
  | none =>
    cases y with
    | none => rfl
    | some j =>
      exfalso
      have hj : (ordOf A).get j ∈ ordOf A := List.get_mem (ordOf A) j.val j.isLt
      have h' : (ordOf A).get j = none := h.symm
      exact (hmem _ hj).2 h'
  | some i =>
    cases y with
    | none =>
      exfalso
      have hi : (ordOf A).get i ∈ ordOf A := List.get_mem (ordOf A) i.val i.isLt
      exact (hmem _ hi).2 h
    | some j =>
      have : (ordOf A).get i = (ordOf A).get j := h
      rw [(List.Nodup.get_inj_iff hnodup).mp this]

/-- On the canonical automaton the refinement is discrete: every state is
its own class representative. -/
theorem repOf_canon_id {n : Nat} (A : NDFA n) (hlive : repOf A (some A.start) ≠ none)
    (i : Fin (ordOf A).length) : repOf (canonDFA A) (some i) = some i := by
  obtain ⟨hnodup, hmem, hclosed⟩ := ordOf_invariants A hlive
  have huniq : ∀ y ∈ enumT (ordOf A).length,
      relFixT (canonDFA A) (some i) y = true → y = some i := by
    intro y _ hy
    cases y with
    | none =>
      exfalso
      have hall : ∀ w, accB A ((ordOf A).get i) w = accB A none w := by
        intro w
        rw [← canon_acc A hlive w i, (relFixT_iff _ _ _).mp hy w, accB_none, accB_none]
      have hrel : relFixT A ((ordOf A).get i) none = true := (relFixT_iff A _ _).mpr hall
      have h1 : repOf A ((ordOf A).get i) = none := by
        rw [repOf_eq_of_rel A hrel, repOf_none]
      have hi : (ordOf A).get i ∈ ordOf A := List.get_mem (ordOf A) i.val i.isLt
      exact (hmem _ hi).2 ((hmem _ hi).1 ▸ h1)
    | some j =>
      have hall : ∀ w, accB A ((ordOf A).get i) w = accB A ((ordOf A).get j) w := by
        intro w
        rw [← canon_acc A hlive w i, (relFixT_iff _ _ _).mp hy w, canon_acc A hlive w j]
      have hrel : relFixT A ((ordOf A).get i) ((ordOf A).get j) = true :=
        (relFixT_iff A _ _).mpr hall
      have hi : (ordOf A).get i ∈ ordOf A := List.get_mem (ordOf A) i.val i.isLt
      have hj : (ordOf A).get j ∈ ordOf A := List.get_mem (ordOf A) j.val j.isLt
      have hget : (ordOf A).get i = (ordOf A).get j := by
        rw [← (hmem _ hi).1, ← (hmem _ hj).1]
        exact repOf_eq_of_rel A hrel
      rw [(List.Nodup.get_inj_iff hnodup).mp hget]
  have hfs := firstSat_unique (fun t => relFixT (canonDFA A) (some i) t)
    (enumT (ordOf A).length) (some i) (mem_enumT _) (relFixT_refl _ _) huniq
  unfold repOf
  rw [hfs]
  rfl

/-- One-byte class steps of the canonical automaton read back, through
`ordEmb`, as the class steps of the original automaton. -/
theorem stepListQ_canon {n : Nat} (A : NDFA n) (hlive : repOf A (some A.start) ≠ none) :
    ∀ x, stepListQ A (ordEmb A x) = (stepListQ (canonDFA A) x).map (ordEmb A) := by
  obtain ⟨hnodup, hmem, hclosed⟩ := ordOf_invariants A hlive
  have hnonm : (none : Option (Fin n)) ∉ ordOf A := by
    intro hmemn
    exact (hmem _ hmemn).2 rfl
  intro x
  cases x with
  | none =>
    show stepListQ A none = (stepListQ (canonDFA A) none).map (ordEmb A)
    rw [stepListQ_none, stepListQ_none]
    rfl
  | some i =>
    show stepListQ A ((ordOf A).get i) = _
    unfold stepListQ
    rw [List.map_filterMap]
    apply List.filterMap_congr
    intro b hbm
    have hb : b < 256 := List.mem_range.mp hbm
    have hstep : stepO (canonDFA A) (some i) b =
        idxIn (ordOf A) (repOf A (stepO A ((ordOf A).get i) b)) := rfl
    cases ht : repOf A (stepO A ((ordOf A).get i) b) with
    | none =>
      have hidx : idxIn (ordOf A) (none : Option (Fin n)) = none :=
        idxIn_eq_none _ _ hnonm
      have h2 : stepO (canonDFA A) (some i) b = none := by rw [hstep, ht, hidx]
      rw [h2, repOf_none]
      rfl
    | some j =>
      have htne : repOf A (stepO A ((ordOf A).get i) b) ≠ none := by rw [ht]; simp
      have hmem2 : repOf A (stepO A ((ordOf A).get i) b) ∈
          stepListQ A ((ordOf A).get i) := stepListQ_intro A _ b hb htne
      have hord : repOf A (stepO A ((ordOf A).get i) b) ∈ ordOf A :=
        hclosed _ (List.get_mem (ordOf A) i.val i.isLt) _ hmem2
      obtain ⟨k, hk⟩ := idxIn_some_of_mem _ _ hord
      have hgetk := idxIn_get _ _ _ hk
      have h2 : stepO (canonDFA A) (some i) b = some k := by rw [hstep, hk]
      rw [h2, repOf_canon_id A hlive k]
      show some (some j) = some (ordEmb A (some k))
      rw [show ordEmb A (some k) = (ordOf A).get k from rfl, hgetk, ht]

/-- The discovery order of the canonical automaton reads back, through
`ordEmb`, as the discovery order of the original automaton. -/
theorem ordOf_canon_map {n : Nat} (A : NDFA n) (hlive : repOf A (some A.start) ≠ none) :
    ordOf A = (ordOf (canonDFA A)).map (ordEmb A) := by
  have hinj := ordEmb_inj A hlive
  have hcomm := stepListQ_canon A hlive
  have hstart : repOf (canonDFA A) (some (canonDFA A).start) = some (canonDFA A).start :=
    repOf_canon_id A hlive _
  have h0 : ordEmb A (some (canonDFA A).start) = repOf A (some A.start) := by
    show (ordOf A).get ⟨0, ordOf_pos A⟩ = _
    obtain ⟨w', hw'⟩ := ordOf_cons A
    rw [List.get_of_eq hw']
    rfl
  have hm : (ordOf A).length ≤ n + 1 := by
    have h1 := (ordOf_invariants A hlive).1.length_le_card
    simpa [Fintype.card_option, Fintype.card_fin] using h1
  have hfe : bfsAux (stepListQ (canonDFA A)) ((ordOf A).length + 2)
        [some (canonDFA A).start] [some (canonDFA A).start] =
      bfsAux (stepListQ (canonDFA A)) (n + 2)
        [some (canonDFA A).start] [some (canonDFA A).start] := by
    apply bfsAux_fuel_eq
    · simp
    · simp only [List.length_singleton, Fintype.card_option, Fintype.card_fin]
      omega
    · simp only [List.length_singleton, Fintype.card_option, Fintype.card_fin]
      omega
  have hmapped := bfsAux_map hinj (stepListQ (canonDFA A)) (stepListQ A) hcomm (n + 2)
      [some (canonDFA A).start] [some (canonDFA A).start]
  calc ordOf A
      = bfsAux (stepListQ A) (n + 2)
          ([some (canonDFA A).start].map (ordEmb A))
          ([some (canonDFA A).start].map (ordEmb A)) := by
        rw [show ([some (canonDFA A).start].map (ordEmb A)) = [repOf A (some A.start)] by
          rw [List.map_cons, List.map_nil, h0]]
        rfl
    _ = (bfsAux (stepListQ (canonDFA A)) (n + 2)
          [some (canonDFA A).start] [some (canonDFA A).start]).map (ordEmb A) := hmapped
    _ = (bfsAux (stepListQ (canonDFA A)) ((ordOf A).length + 2)
          [some (canonDFA A).start] [some (canonDFA A).start]).map (ordEmb A) := by
        rw [hfe]
    _ = (ordOf (canonDFA A)).map (ordEmb A) := by
        show _ = (bfsAux (stepListQ (canonDFA A)) ((ordOf A).length + 2)
          [repOf (canonDFA A) (some (canonDFA A).start)]
          [repOf (canonDFA A) (some (canonDFA A).start)]).map (ordEmb A)
        rw [hstart]

theorem ordOf_canon_len {n : Nat} (A : NDFA n) (hlive : repOf A (some A.start) ≠ none) :
    (ordOf (canonDFA A)).length = (ordOf A).length := by
  conv_rhs => rw [ordOf_canon_map A hlive]
  rw [List.length_map]

/-- In the canonical automaton's own discovery order every class sits at
the index it names: the order is the identity enumeration. -/
theorem ordOf_canon_get {n : Nat} (A : NDFA n) (hlive : repOf A (some A.start) ≠ none)
    (k : Fin (ordOf (canonDFA A)).length) :
    ∃ i : Fin (ordOf A).length, (ordOf (canonDFA A)).get k = some i ∧ i.val = k.val := by
  have hlen := ordOf_canon_len A hlive
  obtain ⟨hnodup, hmem, _⟩ := ordOf_invariants A hlive
  obtain ⟨j, hjlt⟩ := k
  have hkl : j < (ordOf A).length := by omega
  have h1 : (ordOf A)[j]? =
      some (ordEmb A ((ordOf (canonDFA A)).get ⟨j, hjlt⟩)) := by
    conv_lhs => rw [ordOf_canon_map A hlive]
    rw [List.getElem?_map, List.getElem?_eq_getElem hjlt]
    rfl
  have h2 : (ordOf A)[j]? = some ((ordOf A).get ⟨j, hkl⟩) := by
    rw [List.getElem?_eq_getElem hkl]
    rfl
  cases hck : (ordOf (canonDFA A)).get ⟨j, hjlt⟩ with
  | none =>
    exfalso
    rw [hck] at h1
    have hmemn : (ordEmb A none) ∈ ordOf A := List.getElem?_mem h1
    exact (hmem _ hmemn).2 rfl
  | some i =>
    rw [hck] at h1
    have hgg : (ordOf A).get ⟨j, hkl⟩ = (ordOf A).get i :=
      Option.some_inj.mp (h2.symm.trans h1)
    have hfin : (⟨j, hkl⟩ : Fin (ordOf A).length) = i :=
      (List.Nodup.get_inj_iff hnodup).mp hgg
    exact ⟨i, rfl, by rw [← hfin]⟩

theorem accT_some {n : Nat} (A : NDFA n) (q : Fin n) :
    accT A (some q) = A.accepting q := rfl

theorem stepO_some {n : Nat} (A : NDFA n) (q : Fin n) (b : Nat) :
    stepO A (some q) b = A.trans q b := rfl

theorem canonDFA_accepting_eq {n : Nat} (A : NDFA n) (i : Fin (ordOf A).length) :
    (canonDFA A).accepting i = accT A ((ordOf A).get i) := rfl

theorem canonDFA_trans_eq {n : Nat} (A : NDFA n) (i : Fin (ordOf A).length) (b : Nat) :
    (canonDFA A).trans i b = idxIn (ordOf A) (repOf A (stepO A ((ordOf A).get i) b)) := rfl

/-- Pointwise agreement of the doubly-canonical and the canonical
automaton on matching state indices (live case). -/
theorem canon_entry_live {n : Nat} (A : NDFA n) (hlive : repOf A (some A.start) ≠ none)
    (k : Fin (ordOf (canonDFA A)).length) (i : Fin (ordOf A).length)
    (hik : i.val = k.val) :
    (canonDFA (canonDFA A)).accepting k = (canonDFA A).accepting i ∧
    ∀ b : Nat, ((canonDFA (canonDFA A)).trans k b).map Fin.val =
      ((canonDFA A).trans i b).map Fin.val := by
  have hlen := ordOf_canon_len A hlive
  have hgetc := ordOf_canon_get A hlive
  have hnonC : (none : Option (Fin (ordOf A).length)) ∉ ordOf (canonDFA A) := by
    intro hm
    obtain ⟨k0, hk0⟩ := idxIn_some_of_mem _ _ hm
    have hg := idxIn_get _ _ _ hk0
    obtain ⟨i0, hi0, _⟩ := hgetc k0
    rw [hi0] at hg
    cases hg
  have hsomeC : ∀ q : Fin (ordOf A).length, some q ∈ ordOf (canonDFA A) := by
    intro q
    have hq : q.val < (ordOf (canonDFA A)).length := by
      have := q.isLt
      omega
    obtain ⟨i0, hi0, hi0v⟩ := hgetc ⟨q.val, hq⟩
    have hiq : i0 = q := Fin.ext hi0v
    rw [hiq] at hi0
    rw [← hi0]
    exact List.get_mem (ordOf (canonDFA A)) q.val hq
  obtain ⟨i1, hi1, hi1v⟩ := hgetc k
  have hii : i1 = i := Fin.ext (by omega)
  rw [hii] at hi1
  constructor
  · rw [canonDFA_accepting_eq (canonDFA A) k, hi1, accT_some]
  · intro b
    rw [canonDFA_trans_eq (canonDFA A) k b, hi1, stepO_some]
    cases he : (canonDFA A).trans i b with
    | none =>
      rw [repOf_none, idxIn_eq_none _ _ hnonC]
      rfl
    | some q =>
      rw [repOf_canon_id A hlive q]
      obtain ⟨k2, hk2⟩ := idxIn_some_of_mem _ _ (hsomeC q)
      have hg2 := idxIn_get _ _ _ hk2
      obtain ⟨i2, hi2, hi2v⟩ := hgetc k2
      rw [hi2] at hg2
      have hi2q : i2 = q := Option.some_inj.mp hg2
      rw [hk2]
      show some k2.val = some q.val
      have hv : k2.val = q.val := by
        rw [← hi2q, hi2v]
      rw [hv]

/-- Idempotence of canonicalisation on encodings, live case. -/
theorem encode_canon_idem_live {n : Nat} (A : NDFA n)
    (hlive : repOf A (some A.start) ≠ none) :
    encodeData (canonDFA (canonDFA A)) = encodeData (canonDFA A) := by
  have hlen := ordOf_canon_len A hlive
  unfold encodeData
  refine congrArg₂ Prod.mk hlen (congrArg₂ Prod.mk rfl ?_)
  apply List.ext_getElem
  · simp only [List.length_map, List.length_finRange]
    exact hlen
  · intro j hj1 hj2
    have hx : j < (ordOf (canonDFA A)).length := by simpa using hj1
    have hx' : j < (ordOf A).length := by simpa using hj2
    rw [List.getElem_map, List.getElem_map, List.getElem_finRange, List.getElem_finRange]
    have hent := canon_entry_live A hlive ⟨j, hx⟩ ⟨j, hx'⟩ rfl
    exact congrArg₂ Prod.mk hent.1 (List.map_congr_left (fun b _ => hent.2 b))

/-- Pointwise agreement of the doubly-canonical and the canonical
automaton, language-empty case: every state of either is the dead class. -/
theorem canon_entry_dead {n : Nat} (A : NDFA n)
    (hdead : repOf A (some A.start) = none)
    (k : Fin (ordOf (canonDFA A)).length) (i : Fin (ordOf A).length) :
    (canonDFA (canonDFA A)).accepting k = (canonDFA A).accepting i ∧
    ∀ b : Nat, ((canonDFA (canonDFA A)).trans k b).map Fin.val =
      ((canonDFA A).trans i b).map Fin.val := by
  have hA : ordOf A = [none] := ordOf_dead A hdead
  have hCacc : ∀ x, accT (canonDFA A) x = false := canon_dead_accT A hA
  have hCrel : relFixT (canonDFA A) (some (canonDFA A).start) none = true := by
    apply (relFixT_iff _ _ _).mpr
    intro w
    unfold accB
    rw [hCacc, hCacc]
  have hCdead : repOf (canonDFA A) (some (canonDFA A).start) = none :=
    (repOf_eq_none_iff _ _).mpr hCrel
  have hC : ordOf (canonDFA A) = [none] := ordOf_dead (canonDFA A) hCdead
  have hgetsA : (ordOf A).get i = none := by
    have key : ∀ y ∈ ordOf A, y = none := by
      intro y hy
      rw [hA] at hy
      simpa using hy
    exact key _ (List.get_mem (ordOf A) i.val i.isLt)
  have hgetsC : (ordOf (canonDFA A)).get k = none := by
    have key : ∀ y ∈ ordOf (canonDFA A), y = none := by
      intro y hy
      rw [hC] at hy
      simpa using hy
    exact key _ (List.get_mem (ordOf (canonDFA A)) k.val k.isLt)
  have hidxA : (idxIn (ordOf A) (none : Option (Fin n))).map Fin.val = some 0 := by
    rw [idxIn_val_congr hA]
    rfl
  have hidxC : (idxIn (ordOf (canonDFA A))
      (none : Option (Fin (ordOf A).length))).map Fin.val = some 0 := by
    rw [idxIn_val_congr hC]
    rfl
  constructor
  · rw [canonDFA_accepting_eq (canonDFA A) k, hgetsC,
      canonDFA_accepting_eq A i, hgetsA]
    rfl
  · intro b
    rw [canonDFA_trans_eq (canonDFA A) k b, hgetsC,
      canonDFA_trans_eq A i b, hgetsA]
    rw [show stepO (canonDFA A) (none : Option (Fin (ordOf A).length)) b = none from rfl]
    rw [show stepO A (none : Option (Fin n)) b = none from rfl]
    rw [repOf_none, repOf_none, hidxC, hidxA]

/-- Idempotence of canonicalisation on encodings, language-empty case:
both canonicalisations are the one-state rejecting automaton. -/
theorem encode_canon_idem_dead {n : Nat} (A : NDFA n)
    (hdead : repOf A (some A.start) = none) :
    encodeData (canonDFA (canonDFA A)) = encodeData (canonDFA A) := by
  have hA : ordOf A = [none] := ordOf_dead A hdead
  have hCrel : relFixT (canonDFA A) (some (canonDFA A).start) none = true := by
    apply (relFixT_iff _ _ _).mpr
    intro w
    unfold accB
    rw [canon_dead_accT A hA, canon_dead_accT A hA]
  have hC : ordOf (canonDFA A) = [none] :=
    ordOf_dead (canonDFA A) ((repOf_eq_none_iff _ _).mpr hCrel)
  have hlenA : (ordOf A).length = 1 := by rw [hA]; rfl
  have hlenC : (ordOf (canonDFA A)).length = 1 := by rw [hC]; rfl
  unfold encodeData
  refine congrArg₂ Prod.mk (by rw [hlenC, hlenA]) (congrArg₂ Prod.mk rfl ?_)
  apply List.ext_getElem
  · simp only [List.length_map, List.length_finRange]
    rw [hlenC, hlenA]
  · intro j hj1 hj2
    have hx : j < (ordOf (canonDFA A)).length := by simpa using hj1
    have hx' : j < (ordOf A).length := by simpa using hj2
    rw [List.getElem_map, List.getElem_map, List.getElem_finRange, List.getElem_finRange]
    have hent := canon_entry_dead A hdead ⟨j, hx⟩ ⟨j, hx'⟩
    exact congrArg₂ Prod.mk hent.1 (List.map_congr_left (fun b _ => hent.2 b))

/-- **C4.** For every automaton `A`, `canonicalise(canonicalise(A))` has a
textual encoding identical to that of `canonicalise(A)` (canonicalisation
is idempotent on encodings — shown both for the printed form and for the
underlying canonical encoding), and `A.equivalent(canonicalise(A))` is
true. -/
theorem c4_canonicalise_idempotent_equivalent (n : Nat) (A : NDFA n) :
    encodeStr (canonDFA (canonDFA A)) = encodeStr (canonDFA A) ∧
    encodeData (canonDFA (canonDFA A)) = encodeData (canonDFA A) ∧
    equivDFA A (canonDFA A) = true := by
  have hdata : encodeData (canonDFA (canonDFA A)) = encodeData (canonDFA A) := by
    by_cases h : repOf A (some A.start) = none
    · exact encode_canon_idem_dead A h
    · exact encode_canon_idem_live A h
  exact ⟨congrArg toString hdata, hdata, equiv_canon A⟩
